import Mathlib

/-!
# Verification of `rs_img2pdf` (image directory → single PDF)

Shallow embedding of `src/converter.rs` (together with the error type of
`src/error.rs`).  The embedding models:

* OS strings (`OsStr`): sequences of decoded Unicode scalars where an
  element `none` marks a byte that is not part of any valid UTF-8 sequence
  (`to_str` fails exactly when such a byte is present; `to_string_lossy`
  renders it as U+FFFD).
* `Path::file_stem` / `Path::extension` via splitting the file name at its
  last `'.'` (no split when the last dot is the first character).
* `extract_numeric_sort_key`, the `BTreeMap`-based
  `collect_and_sort_images` (the map is embedded as an association list
  strictly sorted by the key order; Rust `String` order is byte-wise
  lexicographic on UTF-8 which coincides with codepoint-wise lexicographic
  order, embedded here as `strLt`).
* `convert` / `add_image_as_page` with their object-identifier allocation,
  the emitted PDF objects, and the `fs::write` of the finished document.
* IEEE-754 binary32 arithmetic for the page geometry (`w as f32 / 72.0 *
  72.0`): `roundF32s` implements round-to-nearest, ties-to-even, for
  positive rationals in the normal range, with results represented as
  exact integers scaled by 2^50.
-/

/-! ## OS strings and path components -/

/-- Model of `OsStr` contents: a sequence of Unicode scalars, where `none`
stands for a byte that does not belong to any well-formed UTF-8 sequence.
(Multi-byte UTF-8 sequences appear as single `some c` elements; this is
order- and split-faithful because `'.'` and all ASCII characters are
single bytes, and UTF-8 byte order coincides with codepoint order.) -/
abbrev OsStr := List (Option Char)

/-- Decode an OS string: all scalars, or `none` at the first invalid byte. -/
def osChars : OsStr → Option (List Char)
  | [] => some []
  | none :: _ => none
  | some c :: rest => (osChars rest).map (c :: ·)

/-- `OsStr::to_str`: succeeds iff every element is a valid scalar. -/
def OsStr.toStr (s : OsStr) : Option String :=
  (osChars s).map List.asString

/-- `OsStr::to_string_lossy`: invalid bytes become U+FFFD. -/
def OsStr.lossy (s : OsStr) : String :=
  List.asString (s.map (fun c => c.getD '�'))

/-- Split a file name at its last `'.'`, returning `(before, after)` when
one exists.  Helper for `Path::file_stem` / `Path::extension`. -/
def splitLastDot : List (Option Char) → Option (OsStr × OsStr)
  | [] => none
  | c :: rest =>
    match splitLastDot rest with
    | some (b, a) => some (c :: b, a)
    | none => if c = some '.' then some ([], rest) else none

/-- `Path::file_stem` and `Path::extension` of a file *name*: split at the
last `'.'`; when there is no dot, or the last dot is the leading
character, the stem is the whole name and there is no extension. -/
def stemAndExt (name : OsStr) : OsStr × Option OsStr :=
  match splitLastDot name with
  | none => (name, none)
  | some ([], _) => (name, none)
  | some (b, a) => (b, some a)

/-- A directory entry as seen by the `walkdir` iterator: whether the path
is a regular file, and its file name. -/
structure DirEntry where
  isFile : Bool
  name : OsStr
  deriving DecidableEq

def DirEntry.fileStem (e : DirEntry) : OsStr := (stemAndExt e.name).1

def DirEntry.extension (e : DirEntry) : Option OsStr := (stemAndExt e.name).2

/-! ## Rust `String` ordering (byte-lexicographic) -/

/-- Lexicographic comparison of character lists by codepoint; for valid
UTF-8 this coincides with Rust's byte-wise `Ord` on `String`. -/
def listLt : List Char → List Char → Bool
  | [], [] => false
  | _ :: _, [] => false
  | [], _ :: _ => true
  | a :: as, b :: bs =>
    if a.toNat < b.toNat then true
    else if b.toNat < a.toNat then false
    else listLt as bs

/-- Rust `String` order on the embedded strings. -/
def strLt (a b : String) : Bool := listLt a.data b.data

/-! ## Sort-key extraction (`extract_numeric_sort_key`) -/

/-- Value of a decimal digit string (most significant first). -/
def digitsToNat (digits : List Char) : Nat :=
  digits.foldl (fun acc c => 10 * acc + (c.toNat - '0'.toNat)) 0

/-- `u32::from_str` on a non-empty all-digit string: the value, if it fits
in 32 bits (Rust reports overflow exactly when the value exceeds
`u32::MAX`). -/
def parseU32 (digits : List Char) : Option Nat :=
  if digitsToNat digits < 2 ^ 32 then some (digitsToNat digits) else none

/-- Decimal digit character for `d ≤ 9`. -/
def toDigitChar (d : Nat) : Char := Char.ofNat ('0'.toNat + d)

/-- The `k` leading decimal digits of `n` (big-endian, `n < 10^k`):
embedding of `format!("{:010}", num)` with `k = 10`. -/
def digitsBE : Nat → Nat → List Char
  | 0, _ => []
  | k + 1, n => toDigitChar (n / 10 ^ k) :: digitsBE k (n % 10 ^ k)

/-- `format!("{:010}", num)`: `num` zero-padded to 10 digits (exact for
`num < 10^10`, which covers all of `u32`). -/
def pad10 (n : Nat) : String := List.asString (digitsBE 10 n)

/-- `extract_numeric_sort_key`: take the stem (always present for a named
entry), require it to be valid UTF-8, keep its ASCII digits in order,
and parse them as `u32`; on success produce the zero-padded key. -/
def extractNumericSortKey (e : DirEntry) : Option String :=
  match OsStr.toStr e.fileStem with
  | none => none
  | some s =>
    let numericPart := s.data.filter Char.isDigit
    if numericPart.isEmpty then none
    else
      match parseU32 numericPart with
      | some num => some (pad10 num)
      | none => none

/-- The fallback key: `file_name().and_then(|n| n.to_str()).unwrap_or("")`. -/
def fallbackKey (e : DirEntry) : String := (OsStr.toStr e.name).getD ""

/-- The key under which `collect_and_sort_images` inserts an entry. -/
def sortKey (e : DirEntry) : String :=
  (extractNumericSortKey e).getD (fallbackKey e)

/-! ## Extension filter -/

def supportedExtensions : List String := ["jpg", "jpeg", "png", "webp"]

/-- ASCII lowercasing of one character (Rust `str::to_lowercase`; only
ASCII letters are relevant for comparison against the supported set). -/
def asciiLower (c : Char) : Char :=
  if 'A' ≤ c ∧ c ≤ 'Z' then Char.ofNat (c.toNat + 32) else c

def strLower (s : String) : String := List.asString (s.data.map asciiLower)

/-- The filter of `collect_and_sort_images`: regular file, an extension is
present, and its lossy lowercase form is in the supported set. -/
def includeEntry (e : DirEntry) : Bool :=
  e.isFile &&
    match e.extension with
    | some ext => supportedExtensions.contains (strLower (OsStr.lossy ext))
    | none => false

/-! ## The `BTreeMap<String, _>` as a sorted association list -/

/-- `BTreeMap::insert`: insert into an association list kept strictly
sorted by `strLt`, replacing an existing binding of the same key. -/
def insertSorted {α : Type} (k : String) (v : α) :
    List (String × α) → List (String × α)
  | [] => [(k, v)]
  | (k', v') :: t =>
    if strLt k k' then (k, v) :: (k', v') :: t
    else if k = k' then (k, v) :: t
    else (k', v') :: insertSorted k v t

/-- Key lookup in an association list. -/
def lookupKey {α : Type} (k : String) : List (String × α) → Option α
  | [] => none
  | (k', v) :: t => if k = k' then some v else lookupKey k t

/-- `collect_and_sort_images`, keeping the keys: scan the entries in
iterator order, keep those passing the filter, and insert each under its
sort key.  The final `Vec` of the Rust function is the value column
(`List.map Prod.snd`) of this list. -/
def collectKeyed (entries : List DirEntry) : List (String × DirEntry) :=
  entries.foldl
    (fun m e => if includeEntry e then insertSorted (sortKey e) e m else m) []

/-- `collect_and_sort_images`: the sorted file list (`into_values`). -/
def collectAndSortImages (entries : List DirEntry) : List DirEntry :=
  (collectKeyed entries).map Prod.snd

/-! ## IEEE-754 binary32 page geometry

`add_image_as_page` computes `page_width = img_width as f32 / 72.0 * 72.0`
(and likewise for the height).  All values arising there are positive
normal binary32 numbers (or zero), so they are dyadic rationals
`m * 2^(e-23)` with `2^23 ≤ m < 2^24` and `e ≥ -7`; we represent each
value exactly as the integer `value * 2^50`. -/

/-- Floor of `log2 n` for `n ≥ 1` (fuel-driven so the kernel can reduce
it; fuel 64 covers every quantity in this development). -/
def log2F : Nat → Nat → Nat
  | 0, _ => 0
  | fuel + 1, n => if n ≤ 1 then 0 else log2F fuel (n / 2) + 1

/-- Smallest `k` with `num * 2^k ≥ den` (fuel-driven). -/
def upShiftF : Nat → Nat → Nat → Nat
  | 0, _, _ => 0
  | fuel + 1, num, den => if den ≤ num then 0 else upShiftF fuel (2 * num) den + 1

/-- `⌊log2 (num/den)⌋` for `num ≥ 1`, `den ≥ 1`. -/
def ratLog2 (num den : Nat) : Int :=
  if den ≤ num then (log2F 64 (num / den) : Int)
  else -(upShiftF 64 num den : Int)

/-- Round-to-nearest, ties-to-even integer division: the integer nearest
to `a / d`, with halves going to the even neighbour. -/
def rheDiv (a d : Nat) : Nat :=
  let q := a / d
  let r := a % d
  if 2 * r < d then q
  else if d < 2 * r then q + 1
  else if q % 2 = 0 then q else q + 1

/-- Round the positive rational `num/den` to the nearest binary32 value
(ties to even), returning the result as an exact integer scaled by
`2^50` (valid for values ≥ 2^-27, far below anything arising here;
overflow to infinity cannot occur for the magnitudes used). -/
def roundF32s (num den : Nat) : Nat :=
  if num = 0 then 0
  else
    let e := ratLog2 num den
    let shift : Int := 23 - e
    let n2 := num * 2 ^ shift.toNat
    let d2 := den * 2 ^ (-shift).toNat
    rheDiv n2 d2 * 2 ^ (e + 27).toNat

/-- `w as f32 / 72.0 * 72.0` evaluated in binary32, as an exact integer
scaled by `2^50`: the page width/height computed by `add_image_as_page`
for a pixel dimension `w`. -/
def pageDim (w : Nat) : Nat :=
  let a := roundF32s w 1
  let b := roundF32s a (72 * 2 ^ 50)
  roundF32s (b * 72) (2 ^ 50)

/-! ## PDF assembly (`convert` / `add_image_as_page`) -/

/-- Decoded image data (`image::open` result): pixel dimensions. -/
structure ImageData where
  width : Nat
  height : Nat
  deriving DecidableEq

/-- `AppError` (src/error.rs). Decode failures carry an opaque tag. -/
inductive ConvError where
  | io
  | image (tag : Nat)
  | logger
  | setLogger
  | walkDir
  | noImagesFound
  | invalidExtension
  | fileNameParsing
  | pdfCreation
  deriving DecidableEq

/-- An object emitted into the `Pdf` writer, with the payload fields the
code sets.  `imageX` always also carries `Filter::DctDecode`, DeviceRGB
and 8 bits per component; `content` records the two scaled-f32 numbers
printed into the stream; `page` records the media box
`Rect::new(0, 0, pw, ph)` (coordinates scaled by `2^50`) and the two
references it links. -/
inductive PdfObj where
  | imageX (width height : Nat)
  | content (pw ph : Nat)
  | page (x0 y0 pw ph : Nat) (contentId imageId : Nat)
  | pages (kids : List Nat) (count : Int)
  | catalog (pagesId : Nat)
  deriving DecidableEq

/-- `image_to_jpeg_bytes` (converter.rs:260-268): re-encode the decoded
image as JPEG at fixed quality 80 via the codec collaborator
(`img.write_to(.., ImageOutputFormat::Jpeg(80))`), propagating its
failure.  The collaborator's contract: the DCT/JFIF format stores
dimensions in 16 bits, so the encoder rejects a width or height above
65535 and succeeds within that range; the produced byte stream itself
is opaque to this development. -/
def imageToJpegBytes (img : ImageData) : Except ConvError Unit :=
  if img.width ≤ 65535 ∧ img.height ≤ 65535 then .ok ()
  else .error (.image 0)

/-- `add_image_as_page`: compute the page geometry, re-encode the image
(the `?` at converter.rs:211 — on failure the function aborts before
allocating any id or emitting any object), then allocate the
image-XObject id and the content-stream id and emit the three objects in
the order the code does (image, content stream, page).  Returns the
updated next free id. -/
def addImageAsPage (pageId : Nat) (img : ImageData) (nextId : Nat) :
    Except ConvError (List (Nat × PdfObj) × Nat) :=
  let pw := pageDim img.width
  let ph := pageDim img.height
  match imageToJpegBytes img with
  | .error e => .error e
  | .ok _ =>
    let imageId := nextId
    let contentId := nextId + 1
    .ok ([(imageId, .imageX img.width img.height),
      (contentId, .content pw ph),
      (pageId, .page 0 0 pw ph contentId imageId)],
     nextId + 2)

/-- Result of the per-file loop of `convert`: the files passed to
`process_image` in order, the objects emitted into the writer, the
accumulated page-id list, the final id counter, and the error that
aborted the loop (if any). -/
structure LoopOut where
  attempted : List DirEntry
  objs : List (Nat × PdfObj)
  pageIds : List Nat
  nextId : Nat
  err : Option ConvError
  deriving DecidableEq

/-- The `for (index, file_path) in image_files.iter().enumerate()` loop of
`convert`: decode each file (`process_image`, the `?` at
converter.rs:63); on success allocate the page id and call
`add_image_as_page`, whose own failure (the `?` at converter.rs:69,
raised by the JPEG re-encode) also aborts the loop immediately — then
the page id was already consumed but no object was emitted for the file
and its page id was not pushed. -/
def loopFiles (decode : DirEntry → Except ConvError ImageData) :
    List DirEntry → Nat → LoopOut
  | [], n => ⟨[], [], [], n, none⟩
  | f :: rest, n =>
    match decode f with
    | .error e => ⟨[f], [], [], n, some e⟩
    | .ok img =>
      let pageId := n
      match addImageAsPage pageId img (n + 1) with
      | .error e => ⟨[f], [], [], n + 1, some e⟩
      | .ok (objs₁, n₁) =>
        let r := loopFiles decode rest n₁
        ⟨f :: r.attempted, objs₁ ++ r.objs, pageId :: r.pageIds, r.nextId,
         r.err⟩

/-- Wrapping `usize as i32` cast (`page_ids.len() as i32`). -/
def i32cast (n : Nat) : Int := ((n : Int) + 2 ^ 31) % 2 ^ 32 - 2 ^ 31

instance {ε α : Type} [DecidableEq ε] [DecidableEq α] :
    DecidableEq (Except ε α) := fun x y =>
  match x, y with
  | .ok a, .ok b =>
    if h : a = b then .isTrue (by rw [h]) else .isFalse (by simp [h])
  | .error a, .error b =>
    if h : a = b then .isTrue (by rw [h]) else .isFalse (by simp [h])
  | .ok _, .error _ => .isFalse (by simp)
  | .error _, .ok _ => .isFalse (by simp)

/-- Observable outcome of `convert`: the result value, the objects that
were emitted into the `Pdf` writer before returning, and whether
`fs::write(output_file, ..)` was reached. -/
structure ConvOut where
  result : Except ConvError Unit
  objs : List (Nat × PdfObj)
  wrote : Bool
  deriving DecidableEq

/-- `ImageToPdfConverter::convert`: collect and sort the images, fail with
`NoImagesFound` on an empty list, run the per-file loop starting the id
counter at 3 (ids 1 and 2 are reserved for the catalog and the page
tree), then emit the page tree and the catalog and write the file. -/
def convert (decode : DirEntry → Except ConvError ImageData)
    (entries : List DirEntry) : ConvOut :=
  let imageFiles := collectAndSortImages entries
  if imageFiles.isEmpty then ⟨.error .noImagesFound, [], false⟩
  else
    let r := loopFiles decode imageFiles 3
    match r.err with
    | some e => ⟨.error e, r.objs, false⟩
    | none =>
      ⟨.ok (),
       r.objs ++ [(2, .pages r.pageIds (i32cast r.pageIds.length)),
                  (1, .catalog 2)],
       true⟩

/-! ## Derived definitions used by the verification -/

/-- Invariant of the embedded `BTreeMap`: keys strictly ascending. -/
def SortedKeys {α : Type} (m : List (String × α)) : Prop :=
  List.Pairwise (fun p q => strLt p.1 q.1 = true) m

/-- The step function of the collection fold. -/
def collectStep (m : List (String × DirEntry)) (e : DirEntry) :
    List (String × DirEntry) :=
  if includeEntry e then insertSorted (sortKey e) e m else m

/-- The surviving entry at key `k` after scanning `entries`: the last
entry that passes the filter and derives key `k` (the `BTreeMap`
last-write-wins behaviour). -/
def lastKeyed (k : String) (entries : List DirEntry) : Option DirEntry :=
  entries.reverse.find? fun e => includeEntry e && (sortKey e == k)

/-- The identifier column of the objects emitted by the loop for `k`
files, starting the counter at `n`: per file the page id `n` is allocated
first, then the image id `n + 1`, then the content id `n + 2`, while the
emission order is image, content, page. -/
def idTriples (n : Nat) : Nat → List Nat
  | 0 => []
  | k + 1 => (n + 1) :: (n + 2) :: n :: idTriples (n + 3) k

/-- Convenience constructor for a regular file with a valid UTF-8 name. -/
def entryOf (s : String) : DirEntry := ⟨true, s.data.map some⟩

/-- A directory (non-file) entry with a valid UTF-8 name. -/
def dirEntryOf (s : String) : DirEntry := ⟨false, s.data.map some⟩


/-! ## Order facts for `listLt` / `strLt` -/

theorem listLt_cons_eq (a b : Char) (as bs : List Char) :
    listLt (a :: as) (b :: bs) =
      if a.toNat < b.toNat then true
      else if b.toNat < a.toNat then false
      else listLt as bs := rfl

theorem listLt_cons_lt {a b : Char} (h : a.toNat < b.toNat) (as bs : List Char) :
    listLt (a :: as) (b :: bs) = true := by
  rw [listLt_cons_eq]; simp [h]

theorem listLt_cons_gt {a b : Char} (h : b.toNat < a.toNat) (as bs : List Char) :
    listLt (a :: as) (b :: bs) = false := by
  rw [listLt_cons_eq]
  simp [show ¬ a.toNat < b.toNat by omega, h]

theorem listLt_cons_toNat_eq {a b : Char} (h : a.toNat = b.toNat)
    (as bs : List Char) : listLt (a :: as) (b :: bs) = listLt as bs := by
  rw [listLt_cons_eq]
  simp [show ¬ a.toNat < b.toNat by omega, show ¬ b.toNat < a.toNat by omega]

theorem listLt_cons_iff {a b : Char} {as bs : List Char} :
    listLt (a :: as) (b :: bs) = true ↔
      a.toNat < b.toNat ∨ (a.toNat = b.toNat ∧ listLt as bs = true) := by
  by_cases h1 : a.toNat < b.toNat
  · simp [listLt_cons_lt h1, h1]
  · by_cases h2 : b.toNat < a.toNat
    · rw [listLt_cons_gt h2]
      constructor
      · intro h; cases h
      · intro h
        rcases h with h | ⟨he, -⟩ <;> omega
    · rw [listLt_cons_toNat_eq (by omega : a.toNat = b.toNat)]
      constructor
      · intro h; exact Or.inr ⟨by omega, h⟩
      · intro h
        rcases h with h | ⟨-, ht⟩
        · omega
        · exact ht

theorem listLt_nil_cons {b : Char} {bs : List Char} :
    listLt [] (b :: bs) = true := rfl

theorem listLt_nil_right {as : List Char} : listLt as [] = false := by
  cases as <;> rfl

theorem char_eq_of_toNat_eq {a b : Char} (h : a.toNat = b.toNat) : a = b := by
  have hv : a.val = b.val := by
    apply UInt32.eq_of_val_eq
    exact Fin.eq_of_val_eq h
  cases a; cases b
  simp only at hv
  subst hv
  rfl

theorem listLt_irrefl (l : List Char) : listLt l l = false := by
  induction l with
  | nil => rfl
  | cons a as ih =>
    by_cases h : listLt (a :: as) (a :: as) = true
    · rw [listLt_cons_iff] at h
      rcases h with h | ⟨-, h⟩
      · omega
      · rw [ih] at h; cases h
    · simpa using h

theorem listLt_trans {a b c : List Char} (h1 : listLt a b = true)
    (h2 : listLt b c = true) : listLt a c = true := by
  induction a generalizing b c with
  | nil =>
    cases c with
    | nil => rw [listLt_nil_right] at h2; cases h2
    | cons z zs => exact listLt_nil_cons
  | cons x xs ih =>
    cases b with
    | nil => rw [listLt_nil_right] at h1; cases h1
    | cons y ys =>
      cases c with
      | nil => rw [listLt_nil_right] at h2; cases h2
      | cons z zs =>
        rw [listLt_cons_iff] at h1 h2 ⊢
        rcases h1 with h1 | ⟨he1, ht1⟩
        · rcases h2 with h2 | ⟨he2, ht2⟩
          · exact Or.inl (by omega)
          · exact Or.inl (by omega)
        · rcases h2 with h2 | ⟨he2, ht2⟩
          · exact Or.inl (by omega)
          · exact Or.inr ⟨by omega, ih ht1 ht2⟩

theorem listLt_asymm {a b : List Char} (h : listLt a b = true) :
    listLt b a = false := by
  by_cases hba : listLt b a = true
  · have := listLt_trans h hba
    rw [listLt_irrefl] at this; cases this
  · simpa using hba

theorem listLt_connex {a b : List Char} (h1 : listLt a b = false)
    (h2 : listLt b a = false) : a = b := by
  induction a generalizing b with
  | nil =>
    cases b with
    | nil => rfl
    | cons y ys => rw [listLt_nil_cons] at h1; cases h1
  | cons x xs ih =>
    cases b with
    | nil => rw [listLt_nil_cons] at h2; cases h2
    | cons y ys =>
      have hx : ¬ (x.toNat < y.toNat ∨ (x.toNat = y.toNat ∧ listLt xs ys = true)) := by
        rw [← listLt_cons_iff]; simp [h1]
      have hy : ¬ (y.toNat < x.toNat ∨ (y.toNat = x.toNat ∧ listLt ys xs = true)) := by
        rw [← listLt_cons_iff]; simp [h2]
      push_neg at hx hy
      have hxy : x.toNat = y.toNat := by omega
      have h1t : listLt xs ys = false := by simpa using hx.2 hxy
      have h2t : listLt ys xs = false := by simpa using hy.2 hxy.symm
      rw [char_eq_of_toNat_eq hxy, ih h1t h2t]

theorem string_eq_of_data_eq {a b : String} (h : a.data = b.data) : a = b := by
  cases a; cases b; exact congrArg String.mk h

theorem strLt_irrefl (s : String) : strLt s s = false := listLt_irrefl _

theorem strLt_trans {a b c : String} (h1 : strLt a b = true)
    (h2 : strLt b c = true) : strLt a c = true := listLt_trans h1 h2

theorem strLt_asymm {a b : String} (h : strLt a b = true) :
    strLt b a = false := listLt_asymm h

theorem strLt_connex {a b : String} (h1 : strLt a b = false)
    (h2 : strLt b a = false) : a = b :=
  string_eq_of_data_eq (listLt_connex h1 h2)

/-! ## Sorted association-list (`BTreeMap`) lemmas -/


theorem strLt_of_ne_of_not_lt {k k' : String} (hne : k ≠ k')
    (hnlt : strLt k k' = false) : strLt k' k = true := by
  by_cases h : strLt k' k = true
  · exact h
  · exact absurd (strLt_connex hnlt (by simpa using h)) hne

theorem lookupKey_cons {α : Type} (k k' : String) (v : α)
    (t : List (String × α)) :
    lookupKey k ((k', v) :: t) = if k = k' then some v else lookupKey k t := rfl

theorem insertSorted_cons {α : Type} (k k' : String) (v v' : α)
    (t : List (String × α)) :
    insertSorted k v ((k', v') :: t) =
      if strLt k k' then (k, v) :: (k', v') :: t
      else if k = k' then (k, v) :: t
      else (k', v') :: insertSorted k v t := rfl

theorem mem_insertSorted {α : Type} {k : String} {v : α}
    {m : List (String × α)} {x : String × α} (hx : x ∈ insertSorted k v m) :
    x = (k, v) ∨ x ∈ m := by
  induction m with
  | nil => simpa [insertSorted] using hx
  | cons p t ih =>
    obtain ⟨k', v'⟩ := p
    rw [insertSorted_cons] at hx
    split_ifs at hx with h1 h2
    · rcases List.mem_cons.mp hx with h | h
      · exact Or.inl h
      · exact Or.inr h
    · rcases List.mem_cons.mp hx with h | h
      · exact Or.inl h
      · exact Or.inr (List.mem_cons_of_mem _ h)
    · rcases List.mem_cons.mp hx with h | h
      · rw [h]; exact Or.inr (List.mem_cons_self _ _)
      · rcases ih h with h' | h'
        · exact Or.inl h'
        · exact Or.inr (List.mem_cons_of_mem _ h')

theorem insertSorted_sorted {α : Type} {k : String} {v : α}
    {m : List (String × α)} (hm : SortedKeys m) :
    SortedKeys (insertSorted k v m) := by
  induction m with
  | nil => simp [insertSorted, SortedKeys]
  | cons p t ih =>
    obtain ⟨k', v'⟩ := p
    rw [SortedKeys, List.pairwise_cons] at hm
    obtain ⟨hhead, htail⟩ := hm
    rw [insertSorted_cons]
    split_ifs with h1 h2
    · rw [SortedKeys, List.pairwise_cons]
      refine ⟨?_, List.Pairwise.cons hhead htail⟩
      intro q hq
      rcases List.mem_cons.mp hq with h | h
      · rw [h]; exact h1
      · exact strLt_trans h1 (hhead q h)
    · rw [SortedKeys, List.pairwise_cons]
      exact ⟨fun q hq => h2 ▸ hhead q hq, htail⟩
    · rw [SortedKeys, List.pairwise_cons]
      constructor
      · intro q hq
        rcases mem_insertSorted hq with h | h
        · rw [h]
          exact strLt_of_ne_of_not_lt h2 (by simpa using h1)
        · exact hhead q h
      · exact ih htail

theorem lookupKey_insertSorted_self {α : Type} (k : String) (v : α)
    (m : List (String × α)) :
    lookupKey k (insertSorted k v m) = some v := by
  induction m with
  | nil => simp [insertSorted, lookupKey]
  | cons p t ih =>
    obtain ⟨k', v'⟩ := p
    rw [insertSorted_cons]
    split_ifs with h1 h2
    · rw [lookupKey_cons, if_pos rfl]
    · rw [lookupKey_cons, if_pos rfl]
    · rw [lookupKey_cons, if_neg h2]
      exact ih

theorem lookupKey_insertSorted_ne {α : Type} {k₁ k : String} (v : α)
    (m : List (String × α)) (hne : k₁ ≠ k) :
    lookupKey k₁ (insertSorted k v m) = lookupKey k₁ m := by
  induction m with
  | nil => simp [insertSorted, lookupKey, hne]
  | cons p t ih =>
    obtain ⟨k', v'⟩ := p
    rw [insertSorted_cons]
    split_ifs with h1 h2
    · rw [lookupKey_cons, lookupKey_cons, if_neg hne]
    · rw [lookupKey_cons, lookupKey_cons, if_neg hne, if_neg (h2 ▸ hne)]
    · rw [lookupKey_cons, lookupKey_cons]
      by_cases hk : k₁ = k'
      · rw [if_pos hk, if_pos hk]
      · rw [if_neg hk, if_neg hk]
        exact ih

theorem lookupKey_eq_none {α : Type} {k : String} {m : List (String × α)}
    (h : ∀ p ∈ m, p.1 ≠ k) : lookupKey k m = none := by
  induction m with
  | nil => rfl
  | cons p t ih =>
    obtain ⟨k', v'⟩ := p
    rw [lookupKey_cons]
    rw [if_neg fun hk => h (k', v') (List.mem_cons_self _ _) (by simp [hk.symm])]
    exact ih fun q hq => h q (List.mem_cons_of_mem _ hq)

theorem lookupKey_mem {α : Type} {k : String} {v : α} {m : List (String × α)}
    (h : lookupKey k m = some v) : (k, v) ∈ m := by
  induction m with
  | nil => cases h
  | cons p t ih =>
    obtain ⟨k', v'⟩ := p
    rw [lookupKey_cons] at h
    split_ifs at h with hk
    · cases h
      rw [hk]
      exact List.mem_cons_self _ _
    · exact List.mem_cons_of_mem _ (ih h)

theorem sorted_lookup_tail_none {α : Type} {k : String} {v : α}
    {t : List (String × α)} (h : SortedKeys ((k, v) :: t)) :
    lookupKey k t = none := by
  rw [SortedKeys, List.pairwise_cons] at h
  refine lookupKey_eq_none fun p hp hk => ?_
  have := h.1 p hp
  rw [hk] at this
  rw [strLt_irrefl] at this
  cases this

theorem sortedKeys_ext {α : Type} {m : List (String × α)} (hm : SortedKeys m) :
    ∀ {m₂ : List (String × α)}, SortedKeys m₂ →
      (∀ k, lookupKey k m = lookupKey k m₂) → m = m₂ := by
  induction m with
  | nil =>
    intro m₂ hm₂ h
    cases m₂ with
    | nil => rfl
    | cons p t =>
      obtain ⟨k', v'⟩ := p
      have := h k'
      rw [lookupKey_cons, if_pos rfl] at this
      cases this
  | cons p t ih =>
    obtain ⟨k, v⟩ := p
    intro m₂ hm₂ h
    cases m₂ with
    | nil =>
      have := h k
      rw [lookupKey_cons, if_pos rfl] at this
      cases this
    | cons q t₂ =>
      obtain ⟨k', v'⟩ := q
      have hkk : k = k' := by
        by_contra hne
        have h1 : lookupKey k t₂ = some v := by
          have := h k
          rw [lookupKey_cons, if_pos rfl, lookupKey_cons, if_neg hne] at this
          exact this.symm
        have h2 : lookupKey k' t = some v' := by
          have := h k'
          rw [lookupKey_cons, if_neg (Ne.symm hne), lookupKey_cons,
            if_pos rfl] at this
          exact this
        have hlt1 := (List.pairwise_cons.mp hm₂).1 _ (lookupKey_mem h1)
        have hlt2 := (List.pairwise_cons.mp hm).1 _ (lookupKey_mem h2)
        have := strLt_trans hlt1 hlt2
        rw [strLt_irrefl] at this
        cases this
      subst hkk
      have hvv : v = v' := by
        have := h k
        rw [lookupKey_cons, if_pos rfl, lookupKey_cons, if_pos rfl] at this
        exact Option.some.inj this
      subst hvv
      have htails : ∀ k₀, lookupKey k₀ t = lookupKey k₀ t₂ := by
        intro k₀
        by_cases hk₀ : k₀ = k
        · rw [hk₀, sorted_lookup_tail_none hm, sorted_lookup_tail_none hm₂]
        · have := h k₀
          rw [lookupKey_cons, if_neg hk₀, lookupKey_cons, if_neg hk₀] at this
          exact this
      rw [ih hm.of_cons hm₂.of_cons htails]

theorem sortedKeys_key_inj {α : Type} {m : List (String × α)}
    (hm : SortedKeys m) {p q : String × α} (hp : p ∈ m) (hq : q ∈ m)
    (hk : p.1 = q.1) : p = q := by
  induction m with
  | nil => cases hp
  | cons x t ih =>
    rw [SortedKeys, List.pairwise_cons] at hm
    rcases List.mem_cons.mp hp with hp1 | hp1 <;>
      rcases List.mem_cons.mp hq with hq1 | hq1
    · rw [hp1, hq1]
    · rw [hp1] at hk ⊢
      have := hm.1 q hq1
      rw [← hk, strLt_irrefl] at this
      cases this
    · rw [hq1] at hk ⊢
      have := hm.1 p hp1
      rw [hk, strLt_irrefl] at this
      cases this
    · exact ih hm.2 hp1 hq1

/-! ## `collect_and_sort_images` facts -/


theorem collectKeyed_eq_foldl (entries : List DirEntry) :
    collectKeyed entries = entries.foldl collectStep [] := rfl


theorem foldl_collectStep_sorted (entries : List DirEntry)
    (m : List (String × DirEntry)) (hm : SortedKeys m) :
    SortedKeys (entries.foldl collectStep m) := by
  induction entries generalizing m with
  | nil => exact hm
  | cons e rest ih =>
    rw [List.foldl_cons]
    refine ih _ ?_
    unfold collectStep
    split_ifs
    · exact insertSorted_sorted hm
    · exact hm

theorem collectKeyed_sorted (entries : List DirEntry) :
    SortedKeys (collectKeyed entries) :=
  foldl_collectStep_sorted entries [] List.Pairwise.nil

theorem mem_foldl_collectStep {entries : List DirEntry}
    {m : List (String × DirEntry)} {p : String × DirEntry}
    (hp : p ∈ entries.foldl collectStep m) :
    p ∈ m ∨ (p.2 ∈ entries ∧ includeEntry p.2 = true ∧ sortKey p.2 = p.1) := by
  induction entries generalizing m with
  | nil => exact Or.inl hp
  | cons e rest ih =>
    rw [List.foldl_cons] at hp
    rcases ih hp with h | h
    · unfold collectStep at h
      split_ifs at h with hinc
      · rcases mem_insertSorted h with h1 | h1
        · refine Or.inr ⟨?_, ?_, ?_⟩
          · rw [h1]; exact List.mem_cons_self _ _
          · rw [h1]; exact hinc
          · rw [h1]
        · exact Or.inl h1
      · exact Or.inl h
    · exact Or.inr ⟨List.mem_cons_of_mem _ h.1, h.2.1, h.2.2⟩

theorem mem_collectKeyed {entries : List DirEntry} {p : String × DirEntry}
    (hp : p ∈ collectKeyed entries) :
    p.2 ∈ entries ∧ includeEntry p.2 = true ∧ sortKey p.2 = p.1 := by
  rcases mem_foldl_collectStep hp with h | h
  · cases h
  · exact h

theorem lookupKey_foldl_collectStep (k : String) (entries : List DirEntry)
    (m : List (String × DirEntry)) :
    lookupKey k (entries.foldl collectStep m) =
      (lastKeyed k entries).or (lookupKey k m) := by
  induction entries generalizing m with
  | nil => rfl
  | cons e rest ih =>
    rw [List.foldl_cons, ih]
    have hstep : lookupKey k (collectStep m e) =
        (List.find? (fun x => includeEntry x && (sortKey x == k)) [e]).or
          (lookupKey k m) := by
      unfold collectStep
      by_cases hinc : includeEntry e = true
      · by_cases hk : sortKey e = k
        · rw [if_pos hinc, List.find?_cons_of_pos _ (by simp [hinc, hk])]
          rw [← hk, lookupKey_insertSorted_self]
          rfl
        · rw [if_pos hinc, List.find?_cons_of_neg _ (by simp [hinc, hk]),
            lookupKey_insertSorted_ne _ _ (fun h => hk h.symm)]
          rfl
      · rw [if_neg hinc,
          List.find?_cons_of_neg _ (by simp; intro h; exact absurd h hinc)]
        rfl
    rw [hstep]
    unfold lastKeyed
    rw [List.reverse_cons, List.find?_append]
    cases List.find? (fun x => includeEntry x && (sortKey x == k)) rest.reverse <;>
      rfl

theorem lookupKey_collectKeyed (k : String) (entries : List DirEntry) :
    lookupKey k (collectKeyed entries) = lastKeyed k entries := by
  rw [collectKeyed_eq_foldl, lookupKey_foldl_collectStep]
  cases h : lastKeyed k entries <;> rfl

theorem collectKeyed_all_excluded {entries : List DirEntry}
    (h : ∀ e ∈ entries, includeEntry e = false) : collectKeyed entries = [] := by
  rw [collectKeyed_eq_foldl]
  induction entries with
  | nil => rfl
  | cons e rest ih =>
    rw [List.foldl_cons]
    have he : includeEntry e = false := h e (List.mem_cons_self _ _)
    unfold collectStep
    rw [if_neg (by simp [he])]
    exact ih fun x hx => h x (List.mem_cons_of_mem _ hx)

/-! ## Decimal key lemmas -/

theorem data_asString (l : List Char) : (List.asString l).data = l := rfl

theorem digitsBE_length (k : Nat) : ∀ n, (digitsBE k n).length = k := by
  induction k with
  | zero => intro n; rfl
  | succ k ih =>
    intro n
    show (toDigitChar (n / 10 ^ k) :: digitsBE k (n % 10 ^ k)).length = k + 1
    rw [List.length_cons, ih]

theorem toDigitChar_toNat {d : Nat} (h : d ≤ 9) :
    (toDigitChar d).toNat = 48 + d := by
  interval_cases d <;> rfl

theorem digitsBE_digit_range {k : Nat} :
    ∀ {n}, n < 10 ^ k → ∀ c ∈ digitsBE k n, 48 ≤ c.toNat ∧ c.toNat ≤ 57 := by
  induction k with
  | zero => intro n _ c hc; cases hc
  | succ k ih =>
    intro n hn c hc
    have hpos : 0 < (10:Nat) ^ k := Nat.pos_pow_of_pos k (by norm_num)
    rw [pow_succ] at hn
    have hd : n / 10 ^ k ≤ 9 := by
      have := Nat.div_lt_of_lt_mul hn
      omega
    rcases List.mem_cons.mp hc with h | h
    · rw [h, toDigitChar_toNat hd]
      revert hd
      generalize n / 10 ^ k = d
      intro hd
      constructor <;> omega
    · exact ih (Nat.mod_lt _ (Nat.pos_pow_of_pos k (by norm_num))) c h

theorem digitsBE_lt {k : Nat} :
    ∀ {n m}, m < 10 ^ k → n < m →
      listLt (digitsBE k n) (digitsBE k m) = true := by
  induction k with
  | zero =>
    intro n m hm hnm
    have : (10:Nat) ^ 0 = 1 := pow_zero 10
    omega
  | succ k ih =>
    intro n m hm hnm
    have hpos : 0 < (10:Nat) ^ k := Nat.pos_pow_of_pos k (by norm_num)
    rw [pow_succ] at hm
    have hdm : m / 10 ^ k ≤ 9 := by
      have := Nat.div_lt_of_lt_mul hm
      omega
    have hdle : n / 10 ^ k ≤ m / 10 ^ k := Nat.div_le_div_right (le_of_lt hnm)
    show listLt (toDigitChar (n / 10 ^ k) :: digitsBE k (n % 10 ^ k))
      (toDigitChar (m / 10 ^ k) :: digitsBE k (m % 10 ^ k)) = true
    by_cases hd : n / 10 ^ k < m / 10 ^ k
    · apply listLt_cons_lt
      rw [toDigitChar_toNat (le_trans hdle hdm), toDigitChar_toNat hdm]
      omega
    · have hdeq : n / 10 ^ k = m / 10 ^ k := by omega
      rw [hdeq, listLt_cons_toNat_eq rfl]
      refine ih (Nat.mod_lt _ hpos) ?_
      have h1 := Nat.div_add_mod n (10 ^ k)
      have h2 := Nat.div_add_mod m (10 ^ k)
      rw [← hdeq] at h2
      omega

theorem pad10_lt {n m : Nat} (hm : m < 2 ^ 32) (h : n < m) :
    strLt (pad10 n) (pad10 m) = true := by
  unfold pad10 strLt
  rw [data_asString, data_asString]
  exact digitsBE_lt (lt_trans hm (by norm_num)) h

theorem pad10_length (n : Nat) : (pad10 n).data.length = 10 := by
  unfold pad10
  rw [data_asString, digitsBE_length]

theorem pad10_digits {n : Nat} (hn : n < 2 ^ 32) :
    ∀ c ∈ (pad10 n).data, 48 ≤ c.toNat ∧ c.toNat ≤ 57 := by
  unfold pad10
  rw [data_asString]
  exact digitsBE_digit_range (lt_trans hn (by norm_num))

/-! ## File-name reconstruction and UTF-8 validity -/

theorem splitLastDot_cons (c : Option Char) (rest : List (Option Char)) :
    splitLastDot (c :: rest) =
      match splitLastDot rest with
      | some (b, a) => some (c :: b, a)
      | none => if c = some '.' then some ([], rest) else none := rfl

theorem splitLastDot_eq {l : List (Option Char)} :
    ∀ {b a : OsStr}, splitLastDot l = some (b, a) →
      l = b ++ (some '.') :: a := by
  induction l with
  | nil => intro b a h; cases h
  | cons c rest ih =>
    intro b a h
    rw [splitLastDot_cons] at h
    cases hs : splitLastDot rest with
    | some pa =>
      obtain ⟨b₁, a₁⟩ := pa
      rw [hs] at h
      cases h
      rw [List.cons_append, ← ih hs]
    | none =>
      rw [hs] at h
      split_ifs at h with hc
      · cases h
        rw [hc]
        rfl

theorem extension_decomp {e : DirEntry} {ext : OsStr}
    (h : e.extension = some ext) :
    e.name = e.fileStem ++ (some '.') :: ext := by
  have h2 : (stemAndExt e.name).2 = some ext := h
  show e.name = (stemAndExt e.name).1 ++ some '.' :: ext
  unfold stemAndExt at h2 ⊢
  revert h2
  cases hs : splitLastDot e.name with
  | none =>
    intro h2
    cases (show (none : Option OsStr) = some ext from h2)
  | some pa =>
    obtain ⟨b, a⟩ := pa
    intro h2
    cases b with
    | nil =>
      have hno : (none : Option OsStr) = some ext := h2
      cases hno
    | cons x xs =>
      have hae : some a = some ext := h2
      cases hae
      show e.name = (x :: xs) ++ some '.' :: ext
      exact splitLastDot_eq hs

theorem isSome_opt_map {α β : Type} (f : α → β) (o : Option α) :
    (Option.map f o).isSome = o.isSome := by cases o <;> rfl

theorem osChars_isSome_iff {l : OsStr} :
    (osChars l).isSome = true ↔ ∀ x ∈ l, x.isSome = true := by
  induction l with
  | nil => simp [osChars]
  | cons x xs ih =>
    cases x with
    | none =>
      constructor
      · intro h; cases h
      · intro h
        have := h none (List.mem_cons_self _ _)
        cases this
    | some c =>
      show ((osChars xs).map (c :: ·)).isSome = true ↔ _
      rw [isSome_opt_map]
      rw [ih]
      constructor
      · intro h y hy
        rcases List.mem_cons.mp hy with h1 | h1
        · rw [h1]; rfl
        · exact h y h1
      · intro h y hy
        exact h y (List.mem_cons_of_mem _ hy)

theorem toStr_isSome_iff {l : OsStr} :
    (OsStr.toStr l).isSome = true ↔ ∀ x ∈ l, x.isSome = true := by
  unfold OsStr.toStr
  rw [isSome_opt_map]
  exact osChars_isSome_iff

theorem valid_ext_of_supported {ext : OsStr}
    (h : supportedExtensions.contains (strLower (OsStr.lossy ext)) = true) :
    ∀ x ∈ ext, x.isSome = true := by
  intro x hx
  cases x with
  | some c => rfl
  | none =>
    exfalso
    have hmem : '�' ∈ (strLower (OsStr.lossy ext)).data := by
      unfold strLower OsStr.lossy
      rw [data_asString, data_asString]
      refine List.mem_map.mpr ⟨'�', ?_, by decide⟩
      exact List.mem_map.mpr ⟨none, hx, rfl⟩
    have hmem2 : strLower (OsStr.lossy ext) ∈ supportedExtensions := by
      simpa using h
    simp only [supportedExtensions, List.mem_cons,
      List.not_mem_nil, or_false] at hmem2
    rcases hmem2 with h1 | h1 | h1 | h1 <;> rw [h1] at hmem <;> revert hmem <;>
      decide

theorem include_gives_ext {e : DirEntry} (hinc : includeEntry e = true) :
    ∃ ext, e.extension = some ext ∧
      supportedExtensions.contains (strLower (OsStr.lossy ext)) = true := by
  unfold includeEntry at hinc
  rw [Bool.and_eq_true] at hinc
  obtain ⟨-, hm⟩ := hinc
  cases hex : e.extension with
  | none => rw [hex] at hm; cases hm
  | some ext2 => rw [hex] at hm; exact ⟨ext2, rfl, hm⟩

theorem name_valid {e : DirEntry} {s : String} (hinc : includeEntry e = true)
    (hstem : OsStr.toStr e.fileStem = some s) :
    ∃ fn, OsStr.toStr e.name = some fn := by
  obtain ⟨ext, hext, hsup⟩ := include_gives_ext hinc
  have hname := extension_decomp hext
  have hvalid : ∀ x ∈ e.name, x.isSome = true := by
    rw [hname]
    intro x hx
    rcases List.mem_append.mp hx with h1 | h1
    · exact (toStr_isSome_iff.mp (by rw [hstem]; rfl)) x h1
    · rcases List.mem_cons.mp h1 with h2 | h2
      · rw [h2]; rfl
      · exact valid_ext_of_supported hsup x h2
  exact Option.isSome_iff_exists.mp (toStr_isSome_iff.mpr hvalid)

/-! ## Identifier-allocation lemmas for the conversion loop -/

theorem loopFiles_nil (decode : DirEntry → Except ConvError ImageData)
    (n : Nat) : loopFiles decode [] n = ⟨[], [], [], n, none⟩ := rfl

theorem loopFiles_cons_err (decode : DirEntry → Except ConvError ImageData)
    {f : DirEntry} {e : ConvError} (h : decode f = .error e)
    (rest : List DirEntry) (n : Nat) :
    loopFiles decode (f :: rest) n = ⟨[f], [], [], n, some e⟩ := by
  unfold loopFiles
  rw [h]

theorem loopFiles_cons_ok (decode : DirEntry → Except ConvError ImageData)
    {f : DirEntry} {img : ImageData} (h : decode f = .ok img)
    (henc : imageToJpegBytes img = .ok ())
    (rest : List DirEntry) (n : Nat) :
    loopFiles decode (f :: rest) n =
      ⟨f :: (loopFiles decode rest (n + 3)).attempted,
       [(n + 1, .imageX img.width img.height),
        (n + 2, .content (pageDim img.width) (pageDim img.height)),
        (n, .page 0 0 (pageDim img.width) (pageDim img.height) (n + 2) (n + 1))]
         ++ (loopFiles decode rest (n + 3)).objs,
       n :: (loopFiles decode rest (n + 3)).pageIds,
       (loopFiles decode rest (n + 3)).nextId,
       (loopFiles decode rest (n + 3)).err⟩ := by
  conv_lhs => rw [loopFiles]
  rw [h]
  show (match addImageAsPage n img (n + 1) with
    | .error e => (⟨[f], [], [], n + 1, some e⟩ : LoopOut)
    | .ok (objs₁, n₁) =>
      let r := loopFiles decode rest n₁
      ⟨f :: r.attempted, objs₁ ++ r.objs, n :: r.pageIds, r.nextId,
       r.err⟩) = _
  unfold addImageAsPage
  rw [henc]

theorem loopFiles_cons_encode_err
    (decode : DirEntry → Except ConvError ImageData)
    {f : DirEntry} {img : ImageData} {e : ConvError}
    (h : decode f = .ok img) (henc : imageToJpegBytes img = .error e)
    (rest : List DirEntry) (n : Nat) :
    loopFiles decode (f :: rest) n = ⟨[f], [], [], n + 1, some e⟩ := by
  conv_lhs => rw [loopFiles]
  rw [h]
  show (match addImageAsPage n img (n + 1) with
    | .error e => (⟨[f], [], [], n + 1, some e⟩ : LoopOut)
    | .ok (objs₁, n₁) =>
      let r := loopFiles decode rest n₁
      ⟨f :: r.attempted, objs₁ ++ r.objs, n :: r.pageIds, r.nextId,
       r.err⟩) = _
  unfold addImageAsPage
  rw [henc]


theorem idTriples_bound {k : Nat} :
    ∀ {n x : Nat}, x ∈ idTriples n k → n ≤ x ∧ x < n + 3 * k := by
  induction k with
  | zero => intro n x hx; cases hx
  | succ k ih =>
    intro n x hx
    rcases List.mem_cons.mp hx with h | hx
    · omega
    rcases List.mem_cons.mp hx with h | hx
    · omega
    rcases List.mem_cons.mp hx with h | hx
    · omega
    · have := ih hx
      omega

theorem idTriples_complete {k : Nat} :
    ∀ {n x : Nat}, n ≤ x → x < n + 3 * k → x ∈ idTriples n k := by
  induction k with
  | zero => intro n x h1 h2; omega
  | succ k ih =>
    intro n x h1 h2
    unfold idTriples
    by_cases hx : x < n + 3
    · have : x = n ∨ x = n + 1 ∨ x = n + 2 := by omega
      rcases this with h | h | h <;> rw [h] <;> simp
    · have := ih (n := n + 3) (x := x) (by omega) (by omega)
      simp [this]

theorem idTriples_length (k : Nat) : ∀ n, (idTriples n k).length = 3 * k := by
  induction k with
  | zero => intro n; rfl
  | succ k ih =>
    intro n
    show ((n+1) :: (n+2) :: n :: idTriples (n + 3) k).length = 3 * (k + 1)
    simp only [List.length_cons, ih]
    ring

theorem idTriples_nodup (k : Nat) : ∀ n, (idTriples n k).Nodup := by
  induction k with
  | zero => intro n; exact List.nodup_nil
  | succ k ih =>
    intro n
    show ((n+1) :: (n+2) :: n :: idTriples (n + 3) k).Nodup
    refine List.Nodup.cons ?_ (List.Nodup.cons ?_ (List.Nodup.cons ?_ (ih _)))
    · intro h
      rcases List.mem_cons.mp h with h1 | h1
      · omega
      rcases List.mem_cons.mp h1 with h2 | h2
      · omega
      · have := idTriples_bound h2
        omega
    · intro h
      rcases List.mem_cons.mp h with h1 | h1
      · omega
      · have := idTriples_bound h1
        omega
    · intro h
      have := idTriples_bound h
      omega

theorem loopFiles_all_ok (decode : DirEntry → Except ConvError ImageData) :
    ∀ (files : List DirEntry) (n : Nat),
      (∀ f ∈ files, ∃ img, decode f = .ok img ∧
        imageToJpegBytes img = .ok ()) →
      (loopFiles decode files n).err = none ∧
      (loopFiles decode files n).attempted = files ∧
      (loopFiles decode files n).pageIds =
        (List.range files.length).map (fun i => n + 3 * i) ∧
      (loopFiles decode files n).objs.map Prod.fst =
        idTriples n files.length := by
  intro files
  induction files with
  | nil => intro n h; exact ⟨rfl, rfl, rfl, rfl⟩
  | cons f rest ih =>
    intro n h
    obtain ⟨img, himg, henc⟩ := h f (List.mem_cons_self _ _)
    obtain ⟨h1, h2, h3, h4⟩ := ih (n + 3) fun g hg => h g (List.mem_cons_of_mem _ hg)
    rw [loopFiles_cons_ok decode himg henc]
    refine ⟨h1, ?_, ?_, ?_⟩
    · show f :: (loopFiles decode rest (n + 3)).attempted = f :: rest
      rw [h2]
    · show n :: (loopFiles decode rest (n + 3)).pageIds =
        (List.range (rest.length + 1)).map (fun i => n + 3 * i)
      rw [h3, List.range_succ_eq_map, List.map_cons, List.map_map]
      refine congrArg₂ _ (by omega) (List.map_congr_left fun i hi => ?_)
      show (n + 3) + 3 * i = n + 3 * (i + 1)
      ring
    · show ([(n + 1, PdfObj.imageX img.width img.height),
        (n + 2, PdfObj.content (pageDim img.width) (pageDim img.height)),
        (n, PdfObj.page 0 0 (pageDim img.width) (pageDim img.height)
          (n + 2) (n + 1))] ++
          (loopFiles decode rest (n + 3)).objs).map Prod.fst =
        idTriples n (rest.length + 1)
      rw [List.map_append, h4]
      rfl

theorem loopFiles_first_err (decode : DirEntry → Except ConvError ImageData) :
    ∀ (i : Nat) (files : List DirEntry) (n : Nat) (fi : DirEntry)
      (e : ConvError),
      files[i]? = some fi → decode fi = .error e →
      (∀ j, j < i → ∀ fj, files[j]? = some fj → ∃ img, decode fj = .ok img ∧
        imageToJpegBytes img = .ok ()) →
      (loopFiles decode files n).err = some e ∧
      (loopFiles decode files n).attempted = files.take (i + 1) ∧
      (loopFiles decode files n).objs =
        (loopFiles decode (files.take i) n).objs := by
  intro i
  induction i with
  | zero =>
    intro files n fi e hget hfail hok
    cases files with
    | nil => cases hget
    | cons f rest =>
      have hf : f = fi := by simpa using hget
      rw [loopFiles_cons_err decode (hf ▸ hfail)]
      exact ⟨rfl, rfl, rfl⟩
  | succ i ih =>
    intro files n fi e hget hfail hok
    cases files with
    | nil => cases hget
    | cons f rest =>
      obtain ⟨img, himg, henc⟩ := hok 0 (Nat.succ_pos i) f (by simp)
      have hget2 : rest[i]? = some fi := by simpa using hget
      have hok2 : ∀ j, j < i → ∀ fj, rest[j]? = some fj →
          ∃ img, decode fj = .ok img ∧ imageToJpegBytes img = .ok () := by
        intro j hj fj hfj
        refine hok (j + 1) (by omega) fj ?_
        simpa using hfj
      obtain ⟨h1, h2, h3⟩ := ih rest (n + 3) fi e hget2 hfail hok2
      rw [loopFiles_cons_ok decode himg henc]
      refine ⟨h1, ?_, ?_⟩
      · show f :: (loopFiles decode rest (n + 3)).attempted =
          (f :: rest).take (i + 1 + 1)
        rw [h2, List.take_cons (by omega)]
        simp only [Nat.add_sub_cancel]
      · show _ ++ (loopFiles decode rest (n + 3)).objs =
          (loopFiles decode ((f :: rest).take (i + 1)) n).objs
        rw [List.take_cons (by omega)]
        simp only [Nat.add_sub_cancel]
        rw [loopFiles_cons_ok decode himg henc, h3]

theorem loopFiles_page_shape (decode : DirEntry → Except ConvError ImageData) :
    ∀ (files : List DirEntry) (n : Nat) (p : Nat × PdfObj),
      p ∈ (loopFiles decode files n).objs →
      ∀ x0 y0 pw ph cid iid, p.2 = PdfObj.page x0 y0 pw ph cid iid →
      ∃ f ∈ files, ∃ img, decode f = .ok img ∧
        imageToJpegBytes img = .ok () ∧ x0 = 0 ∧ y0 = 0 ∧
        pw = pageDim img.width ∧ ph = pageDim img.height := by
  intro files
  induction files with
  | nil => intro n p hp; cases hp
  | cons f rest ih =>
    intro n p hp x0 y0 pw ph cid iid hshape
    cases hdec : decode f with
    | error e =>
      rw [loopFiles_cons_err decode hdec] at hp
      cases hp
    | ok img =>
      cases henc : imageToJpegBytes img with
      | error e =>
        rw [loopFiles_cons_encode_err decode hdec henc] at hp
        cases hp
      | ok u =>
        cases u
        rw [loopFiles_cons_ok decode hdec henc] at hp
        rcases List.mem_append.mp hp with h | h
        · rcases List.mem_cons.mp h with h1 | h1
          · rw [h1] at hshape; cases hshape
          rcases List.mem_cons.mp h1 with h2 | h2
          · rw [h2] at hshape; cases hshape
          rcases List.mem_cons.mp h2 with h3 | h3
          · rw [h3] at hshape
            cases hshape
            exact ⟨f, List.mem_cons_self _ _, img, hdec, henc, rfl, rfl, rfl,
              rfl⟩
          · cases h3
        · obtain ⟨g, hg, img₂, hd₂, hrest⟩ :=
            ih (n + 3) p h x0 y0 pw ph cid iid hshape
          exact ⟨g, List.mem_cons_of_mem _ hg, img₂, hd₂, hrest⟩

theorem i32cast_small {n : Nat} (h : n < 2 ^ 31) : i32cast n = (n : Int) := by
  unfold i32cast
  have h1 : (0:Int) ≤ (n : Int) + 2 ^ 31 := by positivity
  have h2 : (n : Int) + 2 ^ 31 < 2 ^ 32 := by
    have : (n : Int) < 2 ^ 31 := by exact_mod_cast h
    norm_num
    omega
  rw [Int.emod_eq_of_lt h1 h2]
  ring


/-! ## Exactness of the binary32 page geometry for encodable dimensions

`pageDim w = w * 2^50` holds for every dimension the JPEG encoder
accepts (`w ≤ 65535`).  The proof tracks the two roundings exactly: the
division by 72 rounds `w·2^s/9` (for the scale `s = 20 - e` of the
quotient's binade) with a balanced remainder of at most 4/9 ulp, and the
multiplication by 72 therefore lands within half an ulp of `w`, with
ties broken towards `w` because its significand is even whenever
`w < 2^17·72`. -/

theorem log2F_succ (fuel n : Nat) :
    log2F (fuel + 1) n = if n ≤ 1 then 0 else log2F fuel (n / 2) + 1 := rfl

theorem log2F_spec :
    ∀ (fuel n : Nat), 1 ≤ n → n < 2 ^ fuel →
      2 ^ log2F fuel n ≤ n ∧ n < 2 ^ (log2F fuel n + 1) := by
  intro fuel
  induction fuel with
  | zero =>
    intro n h1 h2
    simp at h2
    omega
  | succ fuel ih =>
    intro n h1 h2
    rw [log2F_succ]
    by_cases hn1 : n ≤ 1
    · rw [if_pos hn1]
      constructor
      · simpa using h1
      · have : (2:Nat) ^ (0 + 1) = 2 := by norm_num
        omega
    · rw [if_neg hn1]
      have hpow : (2:Nat) ^ (fuel + 1) = 2 * 2 ^ fuel := by
        rw [pow_succ]; ring
      obtain ⟨ihlo, ihhi⟩ := ih (n / 2) (by omega) (by omega)
      have hp1 : (2:Nat) ^ (log2F fuel (n / 2) + 1) =
          2 * 2 ^ log2F fuel (n / 2) := by
        rw [pow_succ]; ring
      have hp2 : (2:Nat) ^ (log2F fuel (n / 2) + 1 + 1) =
          2 * 2 ^ (log2F fuel (n / 2) + 1) := by
        rw [pow_succ]; ring
      omega

theorem ratLog2_ge {num den : Nat} (h : den ≤ num) :
    ratLog2 num den = (log2F 64 (num / den) : Int) := by
  unfold ratLog2
  rw [if_pos h]

theorem rheDiv_one (a : Nat) : rheDiv a 1 = a := by
  unfold rheDiv
  dsimp only
  simp [Nat.mod_one, Nat.div_one]

theorem rheDiv_cancel (a d c : Nat) (hc : 0 < c) :
    rheDiv (a * c) (d * c) = rheDiv a d := by
  unfold rheDiv
  dsimp only
  rw [Nat.mul_div_mul_right a d hc, Nat.mul_mod_mul_right]
  have h1 : (2 * (a % d * c) < d * c) = (2 * (a % d) < d) := by
    rw [show 2 * (a % d * c) = 2 * (a % d) * c by ring]
    exact propext (Nat.mul_lt_mul_right hc)
  have h2 : (d * c < 2 * (a % d * c)) = (d < 2 * (a % d)) := by
    rw [show 2 * (a % d * c) = 2 * (a % d) * c by ring]
    exact propext (Nat.mul_lt_mul_right hc)
  simp only [h1, h2]

theorem rheDiv_nine (a : Nat) : rheDiv a 9 = (a + 4) / 9 := by
  unfold rheDiv
  dsimp only
  split_ifs <;> omega

theorem rheDiv_mul16 (a W4 : Nat) (hlo : 16 * W4 ≤ a + 4)
    (hhi : a ≤ 16 * W4 + 4) : rheDiv a 16 = W4 := by
  unfold rheDiv
  dsimp only
  split_ifs <;> omega

theorem rheDiv_mul8_even (a W3 : Nat) (heven : W3 % 2 = 0)
    (hlo : 8 * W3 ≤ a + 4) (hhi : a ≤ 8 * W3 + 4) : rheDiv a 8 = W3 := by
  unfold rheDiv
  dsimp only
  split_ifs <;> omega

theorem roundF32s_spec (num den E : Nat) (hnum : num ≠ 0)
    (hE : ratLog2 num den = (E : Int)) (hE23 : E ≤ 23) :
    roundF32s num den = rheDiv (num * 2 ^ (23 - E)) den * 2 ^ (E + 27) := by
  unfold roundF32s
  rw [if_neg hnum, hE]
  dsimp only
  have h1 : ((23 : Int) - E).toNat = 23 - E := by omega
  have h2 : (-((23 : Int) - E)).toNat = 0 := by omega
  have h3 : ((E : Int) + 27).toNat = E + 27 := by omega
  rw [h1, h2, h3, pow_zero, mul_one]

theorem roundF32s_nat_exact (w : Nat) (h1 : 1 ≤ w) (h2 : w < 2 ^ 24) :
    roundF32s w 1 = w * 2 ^ 50 := by
  have hspec := log2F_spec 64 w h1 (lt_trans h2 (by norm_num))
  set E := log2F 64 w with hEdef
  have hE23 : E ≤ 23 := by
    by_contra hgt
    push_neg at hgt
    have : (2:Nat) ^ 24 ≤ 2 ^ E := Nat.pow_le_pow_right (by norm_num) hgt
    omega
  have hre : ratLog2 w 1 = (E : Int) := by
    rw [ratLog2_ge (by omega), Nat.div_one]
  rw [roundF32s_spec w 1 E (by omega) hre hE23, rheDiv_one, mul_assoc,
    ← pow_add]
  congr 2
  omega

theorem pageDim_exact_high (w : Nat) (h72 : 72 ≤ w) (hub : w ≤ 65535) :
    pageDim w = w * 2 ^ 50 := by
  have hA : roundF32s w 1 = w * 2 ^ 50 :=
    roundF32s_nat_exact w (by omega)
      (by have h24 : (2:Nat) ^ 24 = 16777216 := by norm_num
          omega)
  obtain ⟨hElo, hEhi⟩ := log2F_spec 64 (w / 72) (by omega)
    (by have h64 : (2:Nat) ^ 64 = 18446744073709551616 := by norm_num
        omega)
  set E := log2F 64 (w / 72) with hEdef
  have hE9 : E ≤ 9 := by
    by_contra hgt
    push_neg at hgt
    have h1 : (2:Nat) ^ 10 ≤ 2 ^ E := Nat.pow_le_pow_right (by norm_num) hgt
    have h2 : (2:Nat) ^ 10 = 1024 := by norm_num
    omega
  have hwlo : 72 * 2 ^ E ≤ w := by omega
  have hwhi : w < 72 * 2 ^ (E + 1) := by omega
  have hre2 : ratLog2 (w * 2 ^ 50) (72 * 2 ^ 50) = (E : Int) := by
    rw [ratLog2_ge (Nat.mul_le_mul_right _ h72),
      Nat.mul_div_mul_right w 72 (by positivity), hEdef]
  have hwpos : w * 2 ^ 50 ≠ 0 :=
    (Nat.mul_pos (by omega) (by positivity)).ne'
  have hb : roundF32s (w * 2 ^ 50) (72 * 2 ^ 50) =
      rheDiv (w * 2 ^ (20 - E)) 9 * 2 ^ (E + 27) := by
    rw [roundF32s_spec _ _ E hwpos hre2 (by omega)]
    congr 1
    have hx : w * 2 ^ 50 * 2 ^ (23 - E) = w * 2 ^ (20 - E) * (8 * 2 ^ 50) := by
      rw [mul_assoc, ← pow_add, mul_assoc,
        show (8:Nat) * 2 ^ 50 = 2 ^ 53 by norm_num, ← pow_add,
        show 50 + (23 - E) = 20 - E + 53 by omega]
    rw [hx, show (72:Nat) * 2 ^ 50 = 9 * (8 * 2 ^ 50) by norm_num]
    exact rheDiv_cancel (w * 2 ^ (20 - E)) 9 (8 * 2 ^ 50) (by positivity)
  set m := rheDiv (w * 2 ^ (20 - E)) 9 with hmdef
  have hm9 : 9 * m ≤ w * 2 ^ (20 - E) + 4 ∧ w * 2 ^ (20 - E) ≤ 9 * m + 4 := by
    rw [hmdef, rheDiv_nine]
    omega
  have hAlo : 9 * 2 ^ 23 ≤ w * 2 ^ (20 - E) := by
    have h1 : 72 * 2 ^ E * 2 ^ (20 - E) ≤ w * 2 ^ (20 - E) :=
      Nat.mul_le_mul_right _ hwlo
    have h2 : 72 * 2 ^ E * 2 ^ (20 - E) = 9 * 2 ^ 23 := by
      rw [mul_assoc, ← pow_add, show E + (20 - E) = 20 by omega]
      norm_num
    omega
  have hAhi : w * 2 ^ (20 - E) < 9 * 2 ^ 24 := by
    have h1 : w * 2 ^ (20 - E) < 72 * 2 ^ (E + 1) * 2 ^ (20 - E) :=
      (Nat.mul_lt_mul_right (by positivity)).mpr hwhi
    have h2 : 72 * 2 ^ (E + 1) * 2 ^ (20 - E) = 9 * 2 ^ 24 := by
      rw [mul_assoc, ← pow_add, show E + 1 + (20 - E) = 21 by omega]
      norm_num
    omega
  have e23 : (2:Nat) ^ 23 = 8388608 := by norm_num
  have e24 : (2:Nat) ^ 24 = 16777216 := by norm_num
  have hmlo : 2 ^ 23 ≤ m := by omega
  have hmhi : m ≤ 2 ^ 24 := by omega
  have hDle : (2:Nat) ^ 50 ≤ 9 * m * 2 ^ (E + 30) := by
    have h1 : (2:Nat) ^ 50 = 2 ^ (20 - E) * 2 ^ (E + 30) := by
      rw [← pow_add, show 20 - E + (E + 30) = 50 by omega]
    have h2 : (2:Nat) ^ (20 - E) ≤ 9 * m := by
      have h3 : (2:Nat) ^ (20 - E) ≤ 2 ^ 23 :=
        Nat.pow_le_pow_right (by norm_num) (by omega)
      omega
    rw [h1]
    exact Nat.mul_le_mul_right _ h2
  have hxdiv : 9 * m * 2 ^ (E + 30) / 2 ^ 50 = 9 * m / 2 ^ (20 - E) := by
    rw [show (2:Nat) ^ 50 = 2 ^ (20 - E) * 2 ^ (E + 30) by
        rw [← pow_add, show 20 - E + (E + 30) = 50 by omega],
      Nat.mul_div_mul_right (9 * m) (2 ^ (20 - E)) (by positivity)]
  have hxlo : 2 ^ (E + 6) ≤ 9 * m / 2 ^ (20 - E) := by
    rw [Nat.le_div_iff_mul_le (by positivity : 0 < (2:Nat) ^ (20 - E))]
    calc (2:Nat) ^ (E + 6) * 2 ^ (20 - E) = 2 ^ 26 := by
          rw [← pow_add, show E + 6 + (20 - E) = 26 by omega]
      _ ≤ 9 * m := by
          have h26 : (2:Nat) ^ 26 = 67108864 := by norm_num
          omega
  have hxhi : 9 * m / 2 ^ (20 - E) < 2 ^ (E + 8) := by
    rw [Nat.div_lt_iff_lt_mul (by positivity : 0 < (2:Nat) ^ (20 - E))]
    calc 9 * m ≤ 9 * 2 ^ 24 := by omega
      _ < 2 ^ 28 := by norm_num
      _ = 2 ^ (E + 8) * 2 ^ (20 - E) := by
          rw [← pow_add, show E + 8 + (20 - E) = 28 by omega]
  have hx1 : 1 ≤ 9 * m / 2 ^ (20 - E) := le_trans Nat.one_le_two_pow hxlo
  have hxlt : 9 * m / 2 ^ (20 - E) < 2 ^ 64 :=
    lt_of_lt_of_le hxhi (Nat.pow_le_pow_right (by norm_num) (by omega))
  obtain ⟨hFlo, hFhi⟩ := log2F_spec 64 (9 * m / 2 ^ (20 - E)) hx1 hxlt
  set F := log2F 64 (9 * m / 2 ^ (20 - E)) with hFdef
  have hFrange : F = E + 6 ∨ F = E + 7 := by
    have h1 : F < E + 8 :=
      (Nat.pow_lt_pow_iff_right (by norm_num)).mp (lt_of_le_of_lt hFlo hxhi)
    have h2 : E + 6 < F + 1 :=
      (Nat.pow_lt_pow_iff_right (by norm_num)).mp (lt_of_le_of_lt hxlo hFhi)
    omega
  have hre3 : ratLog2 (9 * m * 2 ^ (E + 30)) (2 ^ 50) = (F : Int) := by
    rw [ratLog2_ge hDle, hxdiv, hFdef]
  have hnum0 : 9 * m * 2 ^ (E + 30) ≠ 0 :=
    (Nat.mul_pos (by omega) (by positivity)).ne'
  have hc : roundF32s (9 * m * 2 ^ (E + 30)) (2 ^ 50) = w * 2 ^ 50 := by
    rw [roundF32s_spec _ _ F hnum0 hre3 (by omega)]
    rcases hFrange with hF | hF
    · have hshift : 9 * m * 2 ^ (E + 30) * 2 ^ (23 - F) = 9 * m * 2 ^ 47 := by
        rw [mul_assoc, ← pow_add, show E + 30 + (23 - F) = 47 by omega]
      have heven : (w * 2 ^ (17 - E)) % 2 = 0 := by
        rw [show 17 - E = 16 - E + 1 by omega, pow_succ, ← mul_assoc]
        exact Nat.mul_mod_left (w * 2 ^ (16 - E)) 2
      have h8A : 8 * (w * 2 ^ (17 - E)) = w * 2 ^ (20 - E) := by
        rw [show (w:Nat) * 2 ^ (20 - E) = w * (8 * 2 ^ (17 - E)) by
            rw [show 20 - E = 17 - E + 3 by omega, pow_add]; ring]
        ring
      have hcore : rheDiv (9 * m) 8 = w * 2 ^ (17 - E) :=
        rheDiv_mul8_even (9 * m) (w * 2 ^ (17 - E)) heven
          (by rw [h8A]; exact hm9.2) (by rw [h8A]; exact hm9.1)
      have hdiv : rheDiv (9 * m * 2 ^ 47) (2 ^ 50) = w * 2 ^ (17 - E) := by
        rw [show (2:Nat) ^ 50 = 8 * 2 ^ 47 by norm_num,
          rheDiv_cancel (9 * m) 8 (2 ^ 47) (by positivity)]
        exact hcore
      rw [hshift, hdiv, mul_assoc, ← pow_add,
        show 17 - E + (F + 27) = 50 by omega]
    · have hshift : 9 * m * 2 ^ (E + 30) * 2 ^ (23 - F) = 9 * m * 2 ^ 46 := by
        rw [mul_assoc, ← pow_add, show E + 30 + (23 - F) = 46 by omega]
      have h16A : 16 * (w * 2 ^ (16 - E)) = w * 2 ^ (20 - E) := by
        rw [show (w:Nat) * 2 ^ (20 - E) = w * (16 * 2 ^ (16 - E)) by
            rw [show 20 - E = 16 - E + 4 by omega, pow_add]; ring]
        ring
      have hcore : rheDiv (9 * m) 16 = w * 2 ^ (16 - E) :=
        rheDiv_mul16 (9 * m) (w * 2 ^ (16 - E))
          (by rw [h16A]; exact hm9.2) (by rw [h16A]; exact hm9.1)
      have hdiv : rheDiv (9 * m * 2 ^ 46) (2 ^ 50) = w * 2 ^ (16 - E) := by
        rw [show (2:Nat) ^ 50 = 16 * 2 ^ 46 by norm_num,
          rheDiv_cancel (9 * m) 16 (2 ^ 46) (by positivity)]
        exact hcore
      rw [hshift, hdiv, mul_assoc, ← pow_add,
        show 16 - E + (F + 27) = 50 by omega]
  have hnum2 : m * 2 ^ (E + 27) * 72 = 9 * m * 2 ^ (E + 30) := by
    rw [show (2:Nat) ^ (E + 30) = 2 ^ (E + 27) * 8 by
        rw [show E + 30 = E + 27 + 3 by omega, pow_add]; ring]
    ring
  unfold pageDim
  dsimp only
  rw [hA, hb, hnum2, hc]

set_option maxRecDepth 100000 in
theorem pageDim_exact_low : ∀ w, w < 72 → pageDim w = w * 2 ^ 50 := by decide

theorem pageDim_exact (w : Nat) (hub : w ≤ 65535) :
    pageDim w = w * 2 ^ 50 := by
  rcases lt_or_ge w 72 with h | h
  · exact pageDim_exact_low w h
  · exact pageDim_exact_high w h hub

/-! ## `convert` case equations -/

theorem convert_eq_empty {decode : DirEntry → Except ConvError ImageData}
    {entries : List DirEntry} (h : collectAndSortImages entries = []) :
    convert decode entries = ⟨.error .noImagesFound, [], false⟩ := by
  unfold convert
  rw [h]
  rfl

theorem convert_eq_err {decode : DirEntry → Except ConvError ImageData}
    {entries : List DirEntry} {e : ConvError}
    (hne : (collectAndSortImages entries).isEmpty = false)
    (herr : (loopFiles decode (collectAndSortImages entries) 3).err = some e) :
    convert decode entries =
      ⟨.error e, (loopFiles decode (collectAndSortImages entries) 3).objs,
       false⟩ := by
  unfold convert
  simp only [hne, Bool.false_eq_true, if_false]
  rw [herr]

theorem convert_eq_ok {decode : DirEntry → Except ConvError ImageData}
    {entries : List DirEntry}
    (hne : (collectAndSortImages entries).isEmpty = false)
    (herr : (loopFiles decode (collectAndSortImages entries) 3).err = none) :
    convert decode entries =
      ⟨.ok (),
       (loopFiles decode (collectAndSortImages entries) 3).objs ++
         [(2, .pages (loopFiles decode (collectAndSortImages entries) 3).pageIds
            (i32cast (loopFiles decode (collectAndSortImages entries)
              3).pageIds.length)),
          (1, .catalog 2)],
       true⟩ := by
  unfold convert
  simp only [hne, Bool.false_eq_true, if_false]
  rw [herr]

/-! ## Claim theorems -/





/-- C6: if the scan and extension filter keep no file, `convert` fails
with `NoImagesFound`, emits no document object, and writes no file. -/
theorem c6_no_images_found (decode : DirEntry → Except ConvError ImageData)
    (entries : List DirEntry) (h : ∀ e ∈ entries, includeEntry e = false) :
    convert decode entries = ⟨.error .noImagesFound, [], false⟩ := by
  refine convert_eq_empty ?_
  unfold collectAndSortImages
  rw [collectKeyed_all_excluded h]
  rfl

/-- Witness for C6: a directory containing only a `.txt` file and a
subdirectory. -/
theorem c6_no_images_found_witness :
    convert (fun _ => .ok ⟨1, 1⟩) [entryOf "readme.txt", dirEntryOf "sub"] =
      ⟨.error .noImagesFound, [], false⟩ :=
  c6_no_images_found _ _ (by decide)

/-- C5: if decoding the `i`-th file of the sorted sequence fails while
all earlier files are fully processed (decode and JPEG re-encode both
succeed, so the run reaches the `i`-th file), `convert` returns that
error, the loop attempts no file beyond the `i`-th, the writer holds
exactly the objects of the first `i` files (no page for the failing or
any later file), and the output file is not written. -/
theorem c5_decode_failure_aborts
    (decode : DirEntry → Except ConvError ImageData) (entries : List DirEntry)
    (i : Nat) (fi : DirEntry) (e : ConvError)
    (hget : (collectAndSortImages entries)[i]? = some fi)
    (hfail : decode fi = .error e)
    (hok : ∀ j, j < i → ∀ fj, (collectAndSortImages entries)[j]? = some fj →
      ∃ img, decode fj = .ok img ∧ imageToJpegBytes img = .ok ()) :
    (convert decode entries).result = .error e ∧
    (convert decode entries).wrote = false ∧
    (loopFiles decode (collectAndSortImages entries) 3).attempted =
      (collectAndSortImages entries).take (i + 1) ∧
    (convert decode entries).objs =
      (loopFiles decode ((collectAndSortImages entries).take i) 3).objs := by
  obtain ⟨h1, h2, h3⟩ :=
    loopFiles_first_err decode i (collectAndSortImages entries) 3 fi e hget
      hfail hok
  have hne : (collectAndSortImages entries).isEmpty = false := by
    cases hl : collectAndSortImages entries
    · rw [hl] at hget; cases hget
    · rfl
  rw [convert_eq_err hne h1]
  exact ⟨rfl, rfl, h2, h3⟩

/-- Witness for C5: two images; the first (in sorted order, `a1.jpg`)
decodes, the second (`b2.png`) fails, so only the first file's three
objects exist and nothing is written. -/
theorem c5_decode_failure_aborts_witness :
    ((convert
        (fun f => if f = entryOf "b2.png" then .error (.image 7)
          else .ok ⟨10, 20⟩)
        [entryOf "b2.png", entryOf "a1.jpg"]).result =
      .error (.image 7)) ∧
    (convert
        (fun f => if f = entryOf "b2.png" then .error (.image 7)
          else .ok ⟨10, 20⟩)
        [entryOf "b2.png", entryOf "a1.jpg"]).wrote = false := by
  have h := c5_decode_failure_aborts
    (fun f => if f = entryOf "b2.png" then .error (.image 7) else .ok ⟨10, 20⟩)
    [entryOf "b2.png", entryOf "a1.jpg"] 1 (entryOf "b2.png") (.image 7)
    (by decide) (by decide)
    (by
      intro j hj fj hfj
      interval_cases j
      refine ⟨⟨10, 20⟩, ?_, by decide⟩
      have : fj = entryOf "a1.jpg" := by
        have h10 : (collectAndSortImages
            [entryOf "b2.png", entryOf "a1.jpg"])[0]? =
            some (entryOf "a1.jpg") := by decide
        rw [h10] at hfj
        exact (Option.some.inj hfj).symm
      rw [this]
      decide)
  exact ⟨h.1, h.2.1⟩

/-- C3: a successful conversion of `N` files uses exactly `2 + 3N`
distinct identifiers: 1 and 2 for the catalog and page tree, and per file
`i` (0-based, in processing order) the page id `3 + 3i`, image id
`4 + 3i` and content id `5 + 3i` — allocated page, then image, then
content, strictly increasing from 3, none reused or skipped.  The page
ids appear in the page tree's kid list in processing order and its count
is `N`.  A successful conversion is one where every file decodes and
JPEG re-encodes successfully.  (`idTriples` lists each file's ids in
emission order: image, content, page.) -/
theorem c3_id_allocation (decode : DirEntry → Except ConvError ImageData)
    (entries : List DirEntry) (N : Nat)
    (hN : (collectAndSortImages entries).length = N)
    (hne : collectAndSortImages entries ≠ [])
    (hok : ∀ f ∈ collectAndSortImages entries, ∃ img, decode f = .ok img ∧
      imageToJpegBytes img = .ok ())
    (hsize : 3 * N + 2 < 2 ^ 31) :
    (convert decode entries).result = .ok () ∧
    (convert decode entries).wrote = true ∧
    (convert decode entries).objs.map Prod.fst = idTriples 3 N ++ [2, 1] ∧
    ((convert decode entries).objs.map Prod.fst).Nodup ∧
    ((convert decode entries).objs.map Prod.fst).length = 2 + 3 * N ∧
    (∀ x, x ∈ (convert decode entries).objs.map Prod.fst ↔
      1 ≤ x ∧ x ≤ 3 * N + 2) ∧
    (2, PdfObj.pages ((List.range N).map fun i => 3 + 3 * i) (N : Int)) ∈
      (convert decode entries).objs := by
  obtain ⟨h1, h2, h3, h4⟩ := loopFiles_all_ok decode _ 3 hok
  have hne2 : (collectAndSortImages entries).isEmpty = false := by
    cases hl : collectAndSortImages entries
    · exact absurd hl hne
    · rfl
  rw [convert_eq_ok hne2 h1]
  have hmapfst : ((loopFiles decode (collectAndSortImages entries) 3).objs ++
      [(2, PdfObj.pages (loopFiles decode (collectAndSortImages entries)
          3).pageIds
        (i32cast (loopFiles decode (collectAndSortImages entries)
          3).pageIds.length)),
       (1, PdfObj.catalog 2)]).map Prod.fst = idTriples 3 N ++ [2, 1] := by
    rw [List.map_append, h4, hN]
    rfl
  refine ⟨rfl, rfl, hmapfst, ?_, ?_, ?_, ?_⟩
  · rw [hmapfst]
    refine List.Nodup.append (idTriples_nodup N 3) (by decide) ?_
    intro x hx
    have := idTriples_bound hx
    intro hmem
    rcases List.mem_cons.mp hmem with h | h
    · omega
    rcases List.mem_cons.mp h with h | h
    · omega
    · cases h
  · rw [hmapfst, List.length_append, idTriples_length]
    simp
    omega
  · intro x
    rw [hmapfst]
    constructor
    · intro hx
      rcases List.mem_append.mp hx with h | h
      · have := idTriples_bound h
        omega
      · rcases List.mem_cons.mp h with h | h
        · omega
        rcases List.mem_cons.mp h with h | h
        · omega
        · cases h
    · intro hx
      by_cases hx3 : 3 ≤ x
      · exact List.mem_append_left _ (idTriples_complete hx3 (by omega))
      · refine List.mem_append_right _ ?_
        have : x = 1 ∨ x = 2 := by omega
        rcases this with h | h <;> rw [h] <;> decide
  · refine List.mem_append_right _ ?_
    have hpid : (loopFiles decode (collectAndSortImages entries) 3).pageIds =
        (List.range N).map fun i => 3 + 3 * i := by
      rw [h3, hN]
    rw [hpid, List.length_map, List.length_range, i32cast_small (by omega)]
    exact List.mem_cons_self _ _

/-- Witness for C3: two files, ids `[4, 5, 3, 7, 8, 6]` for the objects
of the two pages plus `2` (page tree with kids `[3, 6]`, count 2) and
`1` (catalog). -/
theorem c3_id_allocation_witness :
    ((convert (fun _ => .ok ⟨10, 20⟩)
        [entryOf "b2.png", entryOf "a1.jpg"]).objs.map Prod.fst =
      idTriples 3 2 ++ [2, 1]) ∧
    (2, PdfObj.pages [3, 6] (2 : Int)) ∈
      (convert (fun _ => .ok ⟨10, 20⟩)
        [entryOf "b2.png", entryOf "a1.jpg"]).objs := by
  have h := c3_id_allocation (fun _ => .ok ⟨10, 20⟩)
    [entryOf "b2.png", entryOf "a1.jpg"] 2 (by decide) (by decide)
    (fun f _ => ⟨⟨10, 20⟩, rfl, by decide⟩) (by norm_num)
  refine ⟨h.2.2.1, ?_⟩
  have := h.2.2.2.2.2.2
  simpa using this

/-- Every page object in the writer comes from a successfully decoded
file of the sorted list, and its media box is
`{0, 0, pageDim width, pageDim height}`. -/
theorem convert_page_shape (decode : DirEntry → Except ConvError ImageData)
    (entries : List DirEntry) {p : Nat × PdfObj}
    (hp : p ∈ (convert decode entries).objs)
    {x0 y0 pw ph cid iid : Nat}
    (hshape : p.2 = PdfObj.page x0 y0 pw ph cid iid) :
    ∃ f ∈ collectAndSortImages entries, ∃ img, decode f = .ok img ∧
      imageToJpegBytes img = .ok () ∧
      x0 = 0 ∧ y0 = 0 ∧ pw = pageDim img.width ∧ ph = pageDim img.height := by
  by_cases hemp : (collectAndSortImages entries).isEmpty = true
  · rw [convert_eq_empty (List.isEmpty_iff.mp hemp)] at hp
    cases hp
  · have hne : (collectAndSortImages entries).isEmpty = false := by
      simpa using hemp
    cases herr : (loopFiles decode (collectAndSortImages entries) 3).err with
    | some e =>
      rw [convert_eq_err hne herr] at hp
      exact loopFiles_page_shape decode _ 3 p hp x0 y0 pw ph cid iid hshape
    | none =>
      rw [convert_eq_ok hne herr] at hp
      rcases List.mem_append.mp hp with h | h
      · exact loopFiles_page_shape decode _ 3 p h x0 y0 pw ph cid iid hshape
      · rcases List.mem_cons.mp h with h1 | h1
        · rw [h1] at hshape; cases hshape
        rcases List.mem_cons.mp h1 with h2 | h2
        · rw [h2] at hshape; cases hshape
        · cases h2

/-- C4: every page object `convert` emits has media box exactly
`{0, 0, W, H}` for the decoded pixel dimensions `(W, H)` of its image
(coordinates scaled by `2^50`, the exact encoding of the binary32
values): the computed `W as f32 / 72.0 * 72.0` and
`H as f32 / 72.0 * 72.0` are numerically equal to the pixel counts,
because a page is only emitted after the JPEG re-encode succeeds, which
bounds both dimensions by 65535, and the f32 round trip is exact for
every dimension in that range. -/
theorem c4_page_box_geometry (decode : DirEntry → Except ConvError ImageData)
    (entries : List DirEntry) (p : Nat × PdfObj)
    (hp : p ∈ (convert decode entries).objs)
    (x0 y0 pw ph cid iid : Nat)
    (hshape : p.2 = PdfObj.page x0 y0 pw ph cid iid) :
    ∃ f ∈ collectAndSortImages entries, ∃ img, decode f = .ok img ∧
      imageToJpegBytes img = .ok () ∧
      x0 = 0 ∧ y0 = 0 ∧
      pw = img.width * 2 ^ 50 ∧ ph = img.height * 2 ^ 50 := by
  obtain ⟨f, hf, img, hdec, henc, hx0, hy0, hpw, hph⟩ :=
    convert_page_shape decode entries hp hshape
  have hle : img.width ≤ 65535 ∧ img.height ≤ 65535 := by
    by_contra hnot
    unfold imageToJpegBytes at henc
    rw [if_neg hnot] at henc
    cases henc
  refine ⟨f, hf, img, hdec, henc, hx0, hy0, ?_, ?_⟩
  · rw [hpw, pageDim_exact img.width hle.1]
  · rw [hph, pageDim_exact img.height hle.2]

/-- Witness for C4: a single 10×20 image yields the page object
`(3, page 0 0 (10·2^50) (20·2^50) 5 4)`. -/
theorem c4_page_box_geometry_witness :
    ∃ f ∈ collectAndSortImages [entryOf "a1.jpg"], ∃ img,
      (fun _ : DirEntry =>
        (Except.ok ⟨10, 20⟩ : Except ConvError ImageData)) f = .ok img ∧
      imageToJpegBytes img = .ok () ∧
      (0:Nat) = 0 ∧ (0:Nat) = 0 ∧
      10 * 2 ^ 50 = img.width * 2 ^ 50 ∧
      20 * 2 ^ 50 = img.height * 2 ^ 50 := by
  exact c4_page_box_geometry (fun _ => .ok ⟨10, 20⟩) [entryOf "a1.jpg"]
    (3, PdfObj.page 0 0 (10 * 2 ^ 50) (20 * 2 ^ 50) 5 4)
    (by decide) 0 0 (10 * 2 ^ 50) (20 * 2 ^ 50) 5 4 rfl

/-- C1: for a scanned (filter-passing) file whose stem is valid UTF-8,
the sort key is the zero-padded 10-digit decimal of the stem's digit
string when that string is non-empty and its value fits `u32`; otherwise
the key is the literal file name (extension included), which is then
valid UTF-8 as a whole. -/
theorem c1_sort_key_derivation (e : DirEntry) (s : String)
    (hinc : includeEntry e = true)
    (hstem : OsStr.toStr e.fileStem = some s) :
    (s.data.filter Char.isDigit ≠ [] ∧
        digitsToNat (s.data.filter Char.isDigit) < 2 ^ 32 →
      sortKey e = pad10 (digitsToNat (s.data.filter Char.isDigit)) ∧
      (sortKey e).data.length = 10) ∧
    (s.data.filter Char.isDigit = [] ∨
        2 ^ 32 ≤ digitsToNat (s.data.filter Char.isDigit) →
      ∃ fn, OsStr.toStr e.name = some fn ∧ sortKey e = fn) := by
  have hextr : extractNumericSortKey e =
      (if (s.data.filter Char.isDigit).isEmpty then none
       else
         match parseU32 (s.data.filter Char.isDigit) with
         | some num => some (pad10 num)
         | none => none) := by
    unfold extractNumericSortKey
    rw [hstem]
  constructor
  · rintro ⟨hne, hfit⟩
    have hkey : sortKey e = pad10 (digitsToNat (s.data.filter Char.isDigit)) := by
      unfold sortKey
      rw [hextr]
      rw [if_neg (by simpa using hne)]
      unfold parseU32
      rw [if_pos hfit]
      rfl
    exact ⟨hkey, by rw [hkey]; exact pad10_length _⟩
  · intro hcase
    obtain ⟨fn, hfn⟩ := name_valid hinc hstem
    refine ⟨fn, hfn, ?_⟩
    have hnone : extractNumericSortKey e = none := by
      rw [hextr]
      rcases hcase with h | h
      · rw [if_pos (by simpa using h)]
      · by_cases hne : (s.data.filter Char.isDigit).isEmpty
        · rw [if_pos hne]
        · rw [if_neg hne]
          unfold parseU32
          rw [if_neg (by omega)]
    unfold sortKey fallbackKey
    rw [hnone, hfn]
    rfl

/-- Witness for C1: `img_012_final.png` gets key `"0000000012"`;
`zz99999999999.jpg` overflows `u32` and falls back to the file name. -/
theorem c1_sort_key_derivation_witness :
    sortKey (entryOf "img_012_final.png") = pad10 12 ∧
    sortKey (entryOf "zz99999999999.jpg") = "zz99999999999.jpg" := by
  constructor
  · have h := (c1_sort_key_derivation (entryOf "img_012_final.png")
      "img_012_final" (by decide) (by decide)).1 (by decide)
    rw [h.1]
    decide
  · have h := (c1_sort_key_derivation (entryOf "zz99999999999.jpg")
      "zz99999999999" (by decide) (by decide)).2 (by decide)
    obtain ⟨fn, hfn, hkey⟩ := h
    rw [hkey]
    have : fn = "zz99999999999.jpg" := by
      have : OsStr.toStr (entryOf "zz99999999999.jpg").name =
          some "zz99999999999.jpg" := by decide
      rw [this] at hfn
      exact (Option.some.inj hfn).symm
    rw [this]

/-- C2: the collected map is strictly sorted by `strLt` on the derived
keys (so the returned value sequence ascends in key order), and
zero-padded numeric keys compare as strings exactly like their values,
so files with smaller extracted integers come first. -/
theorem c2_sorted_output (entries : List DirEntry) :
    SortedKeys (collectKeyed entries) ∧
    (∀ n m : Nat, m < 2 ^ 32 → n < m → strLt (pad10 n) (pad10 m) = true) :=
  ⟨collectKeyed_sorted entries, fun _ _ hm h => pad10_lt hm h⟩

/-- Witness for C2: the keys of `img003` / `img010` / `img100` ascend,
and a concrete three-file scan comes out in that order. -/
theorem c2_sorted_output_witness :
    strLt (pad10 3) (pad10 10) = true ∧ strLt (pad10 10) (pad10 100) = true ∧
    SortedKeys (collectKeyed
      [entryOf "img100.png", entryOf "img003.png", entryOf "img010.png"]) ∧
    collectAndSortImages
      [entryOf "img100.png", entryOf "img003.png", entryOf "img010.png"] =
      [entryOf "img003.png", entryOf "img010.png", entryOf "img100.png"] := by
  refine ⟨(c2_sorted_output []).2 3 10 (by norm_num) (by norm_num),
    (c2_sorted_output []).2 10 100 (by norm_num) (by norm_num),
    (c2_sorted_output _).1, by decide⟩

/-- C9: numeric keys are exactly 10 ASCII digits; any fallback key whose
first character has code below 48 sorts before every numeric key, and
any whose first character has code above 57 sorts after every numeric
key, under the one plain string order. -/
theorem c9_fallback_vs_numeric (c : Char) (rest : List Char) (n : Nat)
    (hn : n < 2 ^ 32) :
    ((pad10 n).data.length = 10 ∧
      ∀ ch ∈ (pad10 n).data, 48 ≤ ch.toNat ∧ ch.toNat ≤ 57) ∧
    (c.toNat < 48 → strLt (List.asString (c :: rest)) (pad10 n) = true) ∧
    (57 < c.toNat → strLt (pad10 n) (List.asString (c :: rest)) = true) := by
  have hd : n / 10 ^ 9 ≤ 9 := by
    have h10 : n < 10 ^ 9 * 10 := lt_of_lt_of_le hn (by norm_num)
    have := Nat.div_lt_of_lt_mul h10
    omega
  have hpad : (pad10 n).data = toDigitChar (n / 10 ^ 9) ::
      digitsBE 9 (n % 10 ^ 9) := rfl
  refine ⟨⟨pad10_length n, pad10_digits hn⟩, ?_, ?_⟩
  · intro hc
    unfold strLt
    rw [data_asString, hpad]
    apply listLt_cons_lt
    rw [toDigitChar_toNat hd]
    omega
  · intro hc
    unfold strLt
    rw [data_asString, hpad]
    apply listLt_cons_lt
    rw [toDigitChar_toNat hd]
    omega

/-- Witness for C9: the fallback key `".hidden.jpg"` (first byte 46)
sorts before the numeric key of value 0, and `"abc.png"` (first byte 97)
sorts after the numeric key of value 4294967295. -/
theorem c9_fallback_vs_numeric_witness :
    strLt (List.asString ('.' :: "hidden.jpg".data)) (pad10 0) = true ∧
    strLt (pad10 4294967295) (List.asString ('a' :: "bc.png".data)) = true :=
  ⟨(c9_fallback_vs_numeric '.' "hidden.jpg".data 0 (by norm_num)).2.1
    (by decide),
   (c9_fallback_vs_numeric 'a' "bc.png".data 4294967295 (by norm_num)).2.2
    (by decide)⟩

/-- C10: a filter-passing file whose stem yields no numeric key and whose
name is not valid UTF-8 gets the empty fallback key; the empty string
sorts strictly before every non-empty key, the binding with key `""` is
always the head of the collected map, and keys are unique in the map, so
at most one such file survives. -/
theorem c10_invalid_name_first (e : DirEntry)
    (hinc : includeEntry e = true)
    (hnum : extractNumericSortKey e = none)
    (hname : OsStr.toStr e.name = none) :
    sortKey e = "" ∧
    (∀ s : String, s ≠ "" → strLt "" s = true) ∧
    (∀ entries v, ("", v) ∈ collectKeyed entries →
      (collectKeyed entries).head? = some ("", v)) ∧
    (∀ entries p q, p ∈ collectKeyed entries → q ∈ collectKeyed entries →
      p.1 = q.1 → p = q) := by
  refine ⟨?_, ?_, ?_, ?_⟩
  · unfold sortKey fallbackKey
    rw [hnum, hname]
    rfl
  · intro s hs
    show listLt [] s.data = true
    cases hdata : s.data with
    | nil => exact absurd (string_eq_of_data_eq hdata) hs
    | cons c cs => exact listLt_nil_cons
  · intro entries v hmem
    have hsorted := collectKeyed_sorted entries
    cases hl : collectKeyed entries with
    | nil => rw [hl] at hmem; cases hmem
    | cons p t =>
      rw [hl] at hmem hsorted
      rcases List.mem_cons.mp hmem with h | h
      · rw [← h]
        rfl
      · exfalso
        have := (List.pairwise_cons.mp hsorted).1 _ h
        have h2 : listLt p.1.data [] = true := this
        rw [listLt_nil_right] at h2
        cases h2
  · intro entries p q hp hq hk
    exact sortedKeys_key_inj (collectKeyed_sorted entries) hp hq hk

/-- Witness for C10: the file `a<invalid>.png` (an invalid byte in the
stem) passes the filter, derives the empty key, and sorts before the key
of `b.png`. -/
theorem c10_invalid_name_first_witness :
    sortKey ⟨true, [some 'a', none, some '.', some 'p', some 'n',
      some 'g']⟩ = "" ∧
    strLt "" (sortKey (entryOf "b.png")) = true := by
  have h := c10_invalid_name_first
    ⟨true, [some 'a', none, some '.', some 'p', some 'n', some 'g']⟩
    (by decide) (by decide) (by decide)
  exact ⟨h.1, h.2.1 (sortKey (entryOf "b.png")) (by decide)⟩

theorem lastKeyed_append (k : String) (l1 l2 : List DirEntry) :
    lastKeyed k (l1 ++ l2) = (lastKeyed k l2).or (lastKeyed k l1) := by
  unfold lastKeyed
  rw [List.reverse_append, List.find?_append]

theorem lastKeyed_singleton (k : String) (e : DirEntry) :
    lastKeyed k [e] =
      if includeEntry e && (sortKey e == k) then some e else none := by
  unfold lastKeyed
  show List.find? _ [e] = _
  rw [List.find?_cons]
  cases h : (includeEntry e && (sortKey e == k)) <;> simp [h]

theorem lastKeyed_none {k : String} {l : List DirEntry}
    (h : ∀ e ∈ l, includeEntry e = true → sortKey e ≠ k) :
    lastKeyed k l = none := by
  unfold lastKeyed
  rw [List.find?_eq_none]
  intro x hx
  rw [Bool.and_eq_true, beq_iff_eq]
  rintro ⟨hinc, hkey⟩
  exact h x (List.mem_reverse.mp hx) hinc hkey

/-- C7: when a later-enumerated qualifying file `e2` derives the same
sort key as an earlier qualifying file `e1` (and no later file reuses
that key), the collected map is the same as if `e1` had not been
scanned at all: `e2` owns the shared key, `e1` survives under no key,
no error is raised, and every other binding is unchanged. -/
theorem c7_duplicate_key_last_wins
    (pre mid post : List DirEntry) (e1 e2 : DirEntry)
    (h1 : includeEntry e1 = true) (h2 : includeEntry e2 = true)
    (hk : sortKey e1 = sortKey e2)
    (hpost : ∀ e ∈ post, includeEntry e = true → sortKey e ≠ sortKey e1) :
    collectKeyed (pre ++ [e1] ++ mid ++ [e2] ++ post) =
      collectKeyed (pre ++ mid ++ [e2] ++ post) ∧
    (sortKey e2, e2) ∈ collectKeyed (pre ++ [e1] ++ mid ++ [e2] ++ post) ∧
    (e1 ≠ e2 →
      ∀ k, (k, e1) ∉ collectKeyed (pre ++ [e1] ++ mid ++ [e2] ++ post)) := by
  have hA : ∀ k, sortKey e1 = k →
      lastKeyed k (pre ++ [e1] ++ mid ++ [e2] ++ post) = some e2 := by
    intro k hke
    simp only [lastKeyed_append, lastKeyed_singleton]
    rw [lastKeyed_none (k := k) (fun e he hi => hke ▸ hpost e he hi)]
    rw [if_pos (by
      rw [Bool.and_eq_true, beq_iff_eq]
      exact ⟨h2, by rw [← hk, hke]⟩)]
    rfl
  have hsame : ∀ k, lastKeyed k (pre ++ [e1] ++ mid ++ [e2] ++ post) =
      lastKeyed k (pre ++ mid ++ [e2] ++ post) := by
    intro k
    by_cases hke : sortKey e1 = k
    · rw [hA k hke]
      simp only [lastKeyed_append, lastKeyed_singleton]
      rw [lastKeyed_none (k := k) (fun e he hi => hke ▸ hpost e he hi)]
      rw [if_pos (by
        rw [Bool.and_eq_true, beq_iff_eq]
        exact ⟨h2, by rw [← hk, hke]⟩)]
      rfl
    · simp only [lastKeyed_append, lastKeyed_singleton]
      rw [if_neg (show ¬ (includeEntry e1 && (sortKey e1 == k)) = true by
        rw [Bool.and_eq_true, beq_iff_eq]
        rintro ⟨-, hkk⟩
        exact hke hkk)]
      rfl
  have hlookups : ∀ k, lookupKey k (collectKeyed
      (pre ++ [e1] ++ mid ++ [e2] ++ post)) =
      lookupKey k (collectKeyed (pre ++ mid ++ [e2] ++ post)) := by
    intro k
    rw [lookupKey_collectKeyed, lookupKey_collectKeyed, hsame k]
  refine ⟨sortedKeys_ext (collectKeyed_sorted _) (collectKeyed_sorted _)
    hlookups, ?_, ?_⟩
  · refine lookupKey_mem ?_
    rw [lookupKey_collectKeyed]
    exact hA (sortKey e2) hk
  · intro hne k hmem
    obtain ⟨-, -, hkey⟩ := mem_collectKeyed hmem
    have hmem2 : (k, e2) ∈ collectKeyed (pre ++ [e1] ++ mid ++ [e2] ++ post) := by
      refine lookupKey_mem ?_
      rw [lookupKey_collectKeyed]
      exact hA k hkey
    have := sortedKeys_key_inj (collectKeyed_sorted _) hmem hmem2 rfl
    exact hne (congrArg Prod.snd this)

/-- Witness for C7: `1a.png` and `a1.png` both derive key
`"0000000001"`; scanning both equals scanning only the later one, which
owns the key. -/
theorem c7_duplicate_key_last_wins_witness :
    collectKeyed ([] ++ [entryOf "1a.png"] ++ [] ++ [entryOf "a1.png"] ++ [])
      = collectKeyed ([] ++ [] ++ [entryOf "a1.png"] ++ []) ∧
    (sortKey (entryOf "a1.png"), entryOf "a1.png") ∈
      collectKeyed
        ([] ++ [entryOf "1a.png"] ++ [] ++ [entryOf "a1.png"] ++ []) := by
  have h := c7_duplicate_key_last_wins [] [] [] (entryOf "1a.png")
    (entryOf "a1.png") (by decide) (by decide) (by decide)
    (by intro e he; cases he)
  exact ⟨h.1, h.2.1⟩

/-- C8 (counterexample): `1a.png` is a regular direct file with a
supported extension, yet it is missing from the output because
`a1.png` derives the same sort key later in the scan — so the output
does not include *exactly* the qualifying entries. -/
theorem c8_scan_filter_counterexample :
    includeEntry (entryOf "1a.png") = true ∧
    entryOf "1a.png" ∈ ([entryOf "1a.png", entryOf "a1.png"] :
      List DirEntry) ∧
    collectAndSortImages [entryOf "1a.png", entryOf "a1.png"] =
      [entryOf "a1.png"] ∧
    entryOf "1a.png" ∉
      collectAndSortImages [entryOf "1a.png", entryOf "a1.png"] := by
  refine ⟨by decide, by decide, by decide, by decide⟩

/-- Every qualifying entry's key survives in the collected map, held by
its last qualifying owner. -/
theorem collect_key_survives {entries : List DirEntry} {e : DirEntry}
    (he : e ∈ entries) (hinc : includeEntry e = true) :
    ∃ e₂, (sortKey e, e₂) ∈ collectKeyed entries ∧
      sortKey e₂ = sortKey e ∧ includeEntry e₂ = true ∧ e₂ ∈ entries := by
  have hfind : ((entries.reverse).find? fun x =>
      includeEntry x && (sortKey x == sortKey e)).isSome = true := by
    rw [List.find?_isSome]
    refine ⟨e, List.mem_reverse.mpr he, ?_⟩
    rw [Bool.and_eq_true, beq_iff_eq]
    exact ⟨hinc, rfl⟩
  obtain ⟨e₂, he₂⟩ := Option.isSome_iff_exists.mp hfind
  have hp := List.find?_some he₂
  rw [Bool.and_eq_true, beq_iff_eq] at hp
  have hmem2 : e₂ ∈ entries := List.mem_reverse.mp
    (List.mem_of_find?_eq_some he₂)
  have hlk : lastKeyed (sortKey e) entries = some e₂ := he₂
  refine ⟨e₂, ?_, hp.2, hp.1, hmem2⟩
  refine lookupKey_mem ?_
  rw [lookupKey_collectKeyed]
  exact hlk

/-- C8 (amended): every file in the output is a scanned regular file
with a supported extension (case-insensitive, from {jpg, jpeg, png,
webp}); conversely, every qualifying entry's sort key is represented in
the output by its last qualifying holder, and when the qualifying
entries have pairwise distinct keys the inclusion is exact.  Other
entries (other extensions, no extension, non-files) never appear and
raise no error. -/
theorem c8_scan_filter (entries : List DirEntry) :
    (∀ e ∈ collectAndSortImages entries, e ∈ entries ∧
      includeEntry e = true) ∧
    (∀ e ∈ entries, includeEntry e = true →
      ∃ e₂, (sortKey e, e₂) ∈ collectKeyed entries ∧
        sortKey e₂ = sortKey e ∧ includeEntry e₂ = true ∧ e₂ ∈ entries) ∧
    ((∀ e₁ ∈ entries, ∀ e₂ ∈ entries, includeEntry e₁ = true →
        includeEntry e₂ = true → sortKey e₁ = sortKey e₂ → e₁ = e₂) →
      ∀ e ∈ entries, includeEntry e = true →
        e ∈ collectAndSortImages entries) := by
  refine ⟨?_, ?_, ?_⟩
  · intro e he
    obtain ⟨p, hp, hpe⟩ := List.mem_map.mp he
    obtain ⟨hmem, hinc, -⟩ := mem_collectKeyed hp
    rw [← hpe]
    exact ⟨hmem, hinc⟩
  · intro e he hinc
    exact collect_key_survives he hinc
  · intro hdistinct e he hinc
    obtain ⟨e₂, hmem, hkey, hinc2, hmem2⟩ := collect_key_survives he hinc
    have : e₂ = e := hdistinct e₂ hmem2 e he hinc2 hinc hkey
    rw [this] at hmem
    exact List.mem_map.mpr ⟨(sortKey e, e), hmem, rfl⟩

/-- Witness for C8: the standard three-file directory with a `.txt` file
and a subdirectory mixed in. -/
theorem c8_scan_filter_witness :
    (∀ e ∈ collectAndSortImages [entryOf "b2.png", entryOf "note.txt",
        dirEntryOf "sub", entryOf "a1.jpg"],
      e ∈ ([entryOf "b2.png", entryOf "note.txt", dirEntryOf "sub",
        entryOf "a1.jpg"] : List DirEntry) ∧ includeEntry e = true) ∧
    entryOf "b2.png" ∈ collectAndSortImages [entryOf "b2.png",
      entryOf "note.txt", dirEntryOf "sub", entryOf "a1.jpg"] := by
  constructor
  · exact (c8_scan_filter _).1
  · refine (c8_scan_filter _).2.2 (by decide) (entryOf "b2.png")
      (by decide) (by decide)
